import Mathlib

/-!
# Verification of the ComfyUI-to-Python extension's resolver and synthesizer

Shallow embedding of `comfyui_to_python.py`:

* `LoadOrderDeterminer` (`determine_load_order`, `_dfs`,
  `_load_special_functions_first`) — the Load-Order Resolver;
* `CodeGenerator` (`generate_workflow`, `create_function_call_code`,
  `format_arg`, `assemble_python_code`, `get_class_info`,
  `clean_variable_name`, `update_inputs`) — the Code Synthesizer.

Modelling conventions, written once here:

* Python dicts become association lists (`List (String × _)`); iteration is
  insertion order, access is `lookupG` (first match), raising `KeyError` on
  a missing key is `Except.error (PyErr.keyError k)`.
* A JSON input value is either a literal (string / int / bool) or a
  two-element list `[source_id, output_index]`; the code's
  `isinstance(val, list)` test is the `Value.vRef` case.  The
  `{"variable_name": ...}` dictionaries that `update_inputs` creates are
  `Value.vVar`.
* Node classes are queried only for `CATEGORY`, `FUNCTION`,
  `INPUT_TYPES()["required"]` / `["hidden"]` keys, and the parameter list of
  the entry-point callable (`None` for a `**kwargs` catch-all); `ClassDef`
  records exactly those.  An absent `"required"`/`"hidden"` key behaves as
  the empty list in every use site, so both are plain lists.
* The recursive `_dfs` is embedded as `dfsAux`, structurally recursive on an
  explicit call-depth bound (`fuel`); `resolverFuel` is proved large enough
  (`dfsAux_success`), so the bound is an artifact, never observable.  The
  node key case is `Sum.inl`, the loop over `inputs.items()` is `Sum.inr`.
  `self.is_special_function` is `true` for every append during
  `_load_special_functions_first` and `false` afterwards, so it is passed as
  the `flag` argument.
* `random.randint(1, 2**64)`, called by `generate_workflow` for `unique_id`
  parameters, reads the process-wide RNG; that ambient state is an explicit
  `RNG` argument (a stream of pre-drawn values) threaded through the loop.
* `inspect.getsource` reads external files; the strings it returns are the
  explicit `utilSources` / `icnSource` arguments.  `black.format_str`, an
  external collaborator, is modelled as the identity on text.
-/

/-- A Python exception as observed by the caller. `keyError k` is
`KeyError(k)` (dict access on a missing key), `indexError` is the
`IndexError` of `clean_name[0]` on an empty string, and `fuelOut` marks
exhaustion of the artificial recursion bound (proved unreachable for the
bound `determine_load_order` uses). -/
inductive PyErr where
  | keyError : String → PyErr
  | indexError : PyErr
  | fuelOut : PyErr
deriving DecidableEq, Repr

deriving instance DecidableEq for Except

/-- A workflow input value: a JSON literal or a `[source_id, output_index]`
list (the code's `isinstance(val, list)` case), or the
`{"variable_name": expr}` dict produced by `update_inputs`. -/
inductive Value where
  | vStr : String → Value
  | vInt : Int → Value
  | vBool : Bool → Value
  | vRef : String → Int → Value
  | vVar : String → Value
deriving DecidableEq, Repr

/-- One workflow node: `{"class_type": ..., "inputs": {...}}`. -/
structure NodeSpec where
  class_type : String
  inputs : List (String × Value)
deriving DecidableEq, Repr

/-- The workflow graph: node id → NodeSpec, in insertion order. -/
abbrev Graph := List (String × NodeSpec)

/-- The metadata `LoadOrderDeterminer`/`CodeGenerator` read off a node class:
`CATEGORY`, `FUNCTION`, the key sets of `INPUT_TYPES()["required"]` and
`["hidden"]`, and the entry-point callable's parameter names
(`none` when the callable has a `**kwargs` catch-all, matching
`get_function_parameters` returning `None`). -/
structure ClassDef where
  category : String
  function : String
  required : List String
  hidden : List String
  params : Option (List String)
deriving DecidableEq, Repr

/-- `NODE_CLASS_MAPPINGS`: class type name → class metadata. -/
abbrev Registry := List (String × ClassDef)

/-- Python dict access `d[k]`: first binding of `k`, `none` if absent. -/
def lookupG {α : Type} : List (String × α) → String → Option α
  | [], _ => none
  | (k', v) :: rest, k => if k' == k then some v else lookupG rest k

/-- The mutable state of a `LoadOrderDeterminer`: `self.visited` (a dict used
as a set) and `self.load_order`. -/
structure RState where
  visited : List String
  load_order : List (String × NodeSpec × Bool)
deriving DecidableEq, Repr

/-- One resolver output entry `(key, self.data[key], self.is_special_function)`. -/
abbrev LoadEntry := String × NodeSpec × Bool

/-- `LoadOrderDeterminer._dfs`, lines 124–143.  `Sum.inl key` is a call
`self._dfs(key)`: mark `key` visited, read `self.data[key]["inputs"]`
(`KeyError` when absent), run the input loop, then append
`(key, self.data[key], flag)`.  `Sum.inr vals` is the remaining iterations of
`for input_key, val in inputs.items()`: descend into `val[0]` of each
list-valued input not yet visited.  `fuel` bounds the call depth and is
consumed on every step; `dfsAux_success` shows `resolverFuel` suffices. -/
def dfsAux (g : Graph) (flag : Bool) :
    Nat → String ⊕ List (String × Value) → RState → Except PyErr RState
  | 0, _, _ => .error .fuelOut
  | fuel + 1, .inl key, st =>
    let st1 : RState := ⟨key :: st.visited, st.load_order⟩
    match lookupG g key with
    | none => .error (.keyError key)
    | some spec =>
      match dfsAux g flag fuel (.inr spec.inputs) st1 with
      | .error e => .error e
      | .ok st2 => .ok ⟨st2.visited, st2.load_order ++ [(key, spec, flag)]⟩
  | _ + 1, .inr [], st => .ok st
  | fuel + 1, .inr ((_, v) :: rest), st =>
    match v with
    | .vRef src _ =>
      if src ∈ st.visited then dfsAux g flag fuel (.inr rest) st
      else
        match dfsAux g flag fuel (.inl src) st with
        | .error e => .error e
        | .ok st' => dfsAux g flag fuel (.inr rest) st'
    | _ => dfsAux g flag fuel (.inr rest) st

/-- `class_def.CATEGORY == "loaders" or class_def.FUNCTION in ["encode"] or
not any(isinstance(val, list) for val in inputs.values())`
(lines 155–161). -/
def isSpecial (cd : ClassDef) (spec : NodeSpec) : Bool :=
  cd.category == "loaders" || cd.function == "encode" ||
    !(spec.inputs.any fun kv =>
      match kv.2 with
      | Value.vRef _ _ => true
      | _ => false)

/-- A call-depth bound certainly larger than any chain `_dfs` can build:
one level per node (each marked before descending) plus one per input
examined, summed over the whole graph. -/
def resolverFuel (g : Graph) : Nat :=
  1 + (g.map fun ks => 2 + ks.2.inputs.length).sum

/-- `LoadOrderDeterminer._load_special_functions_first`, lines 145–165:
iterate the graph keys; look the class up (`KeyError` on a missing type);
when the node is special and unvisited, DFS from it with the special flag. -/
def load_special_functions_first (g : Graph) (reg : Registry) (fuel : Nat) :
    List String → RState → Except PyErr RState
  | [], st => .ok st
  | key :: rest, st =>
    match lookupG g key with
    | none => load_special_functions_first g reg fuel rest st
    | some spec =>
      match lookupG reg spec.class_type with
      | none => .error (.keyError spec.class_type)
      | some cd =>
        if isSpecial cd spec then
          if key ∈ st.visited then load_special_functions_first g reg fuel rest st
          else
            match dfsAux g true fuel (.inl key) st with
            | .error e => .error e
            | .ok st' => load_special_functions_first g reg fuel rest st'
        else load_special_functions_first g reg fuel rest st

/-- The second loop of `determine_load_order` (lines 119–121): DFS from every
still-unvisited key, with the special flag reset to `False`. -/
def mainPass (g : Graph) (fuel : Nat) :
    List String → RState → Except PyErr RState
  | [], st => .ok st
  | key :: rest, st =>
    if key ∈ st.visited then mainPass g fuel rest st
    else
      match dfsAux g false fuel (.inl key) st with
      | .error e => .error e
      | .ok st' => mainPass g fuel rest st'

/-- `LoadOrderDeterminer.determine_load_order` (lines 111–122) on a freshly
constructed determiner (`visited = {}`, `load_order = []`). -/
def determine_load_order (g : Graph) (reg : Registry) :
    Except PyErr (List LoadEntry) :=
  let fuel := resolverFuel g
  match load_special_functions_first g reg fuel (g.map Prod.fst) ⟨[], []⟩ with
  | .error e => .error e
  | .ok st1 =>
    match mainPass g fuel (g.map Prod.fst) st1 with
    | .error e => .error e
    | .ok st2 => .ok st2.load_order

/-! ## The Code Synthesizer (`CodeGenerator`) -/

/-- Python `str.lower()` (character-list level, so that concrete runs reduce
in the kernel; the claims only involve ASCII, where `Char.toLower` agrees
with Python). -/
def pyLower (s : String) : String := String.mk (s.data.map Char.toLower)

/-- Python `str.strip()`: drop leading and trailing whitespace. -/
def pyStrip (s : String) : String :=
  String.mk
    (((s.data.dropWhile Char.isWhitespace).reverse.dropWhile
        Char.isWhitespace).reverse)

/-- The escaping `value.replace("\n", "\\n").replace('"', "'")` of
`format_arg` (both patterns are single characters, so one pass suffices);
`Char.ofNat 39` is the apostrophe. -/
def pyEscape (s : String) : String :=
  String.mk
    (s.data.flatMap fun c =>
      if c == '\n' then ['\\', 'n']
      else if c == '"' then [Char.ofNat 39]
      else [c])

/-- Character class kept by `re.sub(r"[^a-z0-9_]", "", clean_name)`. -/
def isVarChar (c : Char) : Bool :=
  ('a' ≤ c && c ≤ 'z') || ('0' ≤ c && c ≤ '9') || c == '_'

/-- `"-"`/`" "` → `"_"` (the two `replace` calls of `clean_variable_name`). -/
def cleanChar (c : Char) : Char := if c == '-' || c == ' ' then '_' else c

/-- `CodeGenerator.clean_variable_name`, lines 436–457:
`class_type.lower().strip().replace("-", "_").replace(" ", "_")`, then strip
characters outside `[a-z0-9_]`, then prefix `"_"` when the first character is
a digit.  `clean_name[0]` on an empty sanitized string raises `IndexError`. -/
def clean_variable_name (class_type : String) : Except PyErr String :=
  let lowered := pyStrip (pyLower class_type)
  let replaced := lowered.data.map cleanChar
  let clean_name := replaced.filter isVarChar
  match clean_name with
  | [] => .error .indexError
  | c :: _ =>
    .ok (if c.isDigit then "_" ++ String.mk clean_name else String.mk clean_name)

/-- The result variable `f"{self.clean_variable_name(class_type)}_{idx}"`
(line 266). -/
def executedVarName (class_type idx : String) : Except PyErr String :=
  match clean_variable_name class_type with
  | .error e => .error e
  | .ok cn => .ok (cn ++ "_" ++ idx)

/-- `CodeGenerator.format_arg`, lines 329–346.  The fallback branch
`f"{key}={value}"` renders ints/bools/lists the way Python `str` does. -/
def format_arg (key : String) (value : Value) : String :=
  if key == "noise_seed" || key == "seed" then
    key ++ "=random.randint(1, 2**64)"
  else
    match value with
    | Value.vStr s =>
      key ++ "=\"" ++ pyEscape s ++ "\""
    | Value.vVar expr => key ++ "=" ++ expr
    | Value.vInt n => key ++ "=" ++ toString n
    | Value.vBool b => key ++ "=" ++ (if b then "True" else "False")
    | Value.vRef src i => key ++ "=['" ++ src ++ "', " ++ toString i ++ "]"

/-- `CodeGenerator.create_function_call_code`, lines 297–327. -/
def create_function_call_code (obj_name func variable_name : String)
    (is_special_function : Bool) (kwargs : List (String × Value)) : String :=
  let args := String.intercalate ", " (kwargs.map fun kv => format_arg kv.1 kv.2)
  let code := variable_name ++ " = " ++ obj_name ++ "." ++ func ++ "(" ++ args ++ ")\n"
  if is_special_function then code else "\t" ++ code

/-- `CodeGenerator.update_inputs`, lines 479–497: rewrite every list-valued
input whose source already has an executed variable into the
`{"variable_name": f"get_value_at_index({var}, {idx})"}` dict. -/
def update_inputs (inputs : List (String × Value))
    (executed_variables : List (String × String)) : List (String × Value) :=
  inputs.map fun kv =>
    match kv.2 with
    | Value.vRef src i =>
      match lookupG executed_variables src with
      | some var =>
        (kv.1, Value.vVar ("get_value_at_index(" ++ var ++ ", " ++ toString i ++ ")"))
      | none => kv
    | _ => kv

/-- The ambient state of Python's process-wide `random` module, seen by the
synthesizer as the stream of values the successive `random.randint(1, 2**64)`
calls will return. -/
abbrev RNG := List Nat

/-- One call `random.randint(1, 2**64)`: draw the head of the stream. -/
def randint (rng : RNG) : Nat × RNG := (rng.headD 0, rng.tail)

/-- Python `set.add` on `import_statements`, modelled as insertion-ordered
deduplication (the iteration order of a `set` of strings is opaque but fixed
within a process; any fixed order is faithful to the claims). -/
def addImport (l : List String) (s : String) : List String :=
  if s ∈ l then l else l ++ [s]

/-- Python dict assignment `d[k] = v`: overwrite in place or append. -/
def dictSet (l : List (String × Value)) (k : String) (v : Value) :
    List (String × Value) :=
  if l.any (fun kv => kv.1 == k) then
    l.map fun kv => if kv.1 == k then (k, v) else kv
  else l ++ [(k, v)]

/-- The mutable locals of one `generate_workflow` call (the spec's
EmissionState): `import_statements`, `executed_variables`,
`special_functions_code`, `code`, `initialized_objects`, `custom_nodes`. -/
structure GenState where
  import_statements : List String
  executed_variables : List (String × String)
  special_functions_code : List String
  code : List String
  initialized_objects : List (String × String)
  custom_nodes : Bool
deriving DecidableEq, Repr

/-- `generate_workflow`'s initial state (lines 200–210):
`import_statements = {"NODE_CLASS_MAPPINGS"}`, everything else empty. -/
def initGenState : GenState := ⟨["NODE_CLASS_MAPPINGS"], [], [], [], [], false⟩

/-- Lines 243–288 of the `generate_workflow` loop body, from parameter
filtering onward: drop keys outside the callable's parameter list (unless it
is a `**kwargs` catch-all), inject a fresh random `unique_id` when the class
declares it (hidden or positional), allocate the result variable, resolve
references, and route the emitted statement. -/
def genStepRest (cd : ClassDef) (idx : String) (data : NodeSpec)
    (is_special_function : Bool) (obj_name : String) (st : GenState)
    (rng : RNG) : Except PyErr (GenState × RNG) :=
  let no_params := cd.params.isNone
  let inputs := data.inputs.filter fun kv =>
    no_params || (cd.params.getD []).contains kv.1
  let withUid :=
    if cd.hidden.contains "unique_id" then
      let d := randint rng
      (dictSet inputs "unique_id" (Value.vInt d.1), d.2)
    else
      match cd.params with
      | some ps =>
        if ps.contains "unique_id" then
          let d := randint rng
          (dictSet inputs "unique_id" (Value.vInt d.1), d.2)
        else (inputs, rng)
      | none => (inputs, rng)
  match executedVarName data.class_type idx with
  | .error e => .error e
  | .ok var =>
    let executed_variables := st.executed_variables ++ [(idx, var)]
    let finalInputs := update_inputs withUid.1 executed_variables
    let stmt :=
      create_function_call_code obj_name cd.function var is_special_function
        finalInputs
    if is_special_function then
      .ok ({ st with
              executed_variables := executed_variables,
              special_functions_code := st.special_functions_code ++ [stmt] },
           withUid.2)
    else
      .ok ({ st with
              executed_variables := executed_variables,
              code := st.code ++ [stmt] }, withUid.2)

/-- One iteration of the `generate_workflow` loop (lines 212–288): registry
lookup (`KeyError` on an unknown type), the silent skip when a required input
is missing, the `PreviewImage` skip, one-time instantiation
(`get_class_info`, lines 418–434, inlined: the import statement is the class
type itself, the instantiation text depends on membership in the frozen
baseline mapping), then `genStepRest`. -/
def genStep (reg : Registry) (base : List String) (entry : LoadEntry)
    (st : GenState) (rng : RNG) : Except PyErr (GenState × RNG) :=
  let idx := entry.1
  let data := entry.2.1
  let is_special_function := entry.2.2
  let class_type := data.class_type
  match lookupG reg class_type with
  | none => .error (.keyError class_type)
  | some cd =>
    if cd.required.any (fun r => !(data.inputs.any fun kv => kv.1 == r)) then
      .ok (st, rng)
    else
      match lookupG st.initialized_objects class_type with
      | none =>
        if class_type == "PreviewImage" then .ok (st, rng)
        else
          match clean_variable_name class_type with
          | .error e => .error e
          | .ok vn =>
            let inBase := base.contains class_type
            let class_code :=
              if inBase then vn ++ " = " ++ pyStrip class_type ++ "()"
              else vn ++ " = NODE_CLASS_MAPPINGS[\"" ++ class_type ++ "\"]()"
            let st1 : GenState :=
              { st with
                initialized_objects := st.initialized_objects ++ [(class_type, vn)],
                import_statements :=
                  if inBase then addImport st.import_statements class_type
                  else st.import_statements,
                custom_nodes := st.custom_nodes || !inBase,
                special_functions_code := st.special_functions_code ++ [class_code] }
            genStepRest cd idx data is_special_function vn st1 rng
      | some obj_name => genStepRest cd idx data is_special_function obj_name st rng

/-- The whole `for idx, data, is_special_function in load_order` loop. -/
def genLoop (reg : Registry) (base : List String) :
    List LoadEntry → GenState → RNG → Except PyErr (GenState × RNG)
  | [], st, rng => .ok (st, rng)
  | e :: rest, st, rng =>
    match genStep reg base e st rng with
    | .error err => .error err
    | .ok p => genLoop reg base rest p.1 p.2

/-- `CodeGenerator.assemble_python_code`, lines 348–416.  `utilSources` are
the `inspect.getsource` strings of the four utility functions and `icnSource`
that of `import_custom_nodes` (external file contents); the final
`black.format_str` call is the external Formatter collaborator, modelled as
the identity on text. -/
def assemble_python_code (import_statements : List String)
    (special_functions_code : List String) (code : List String)
    (queue_size : Nat) (custom_nodes : Bool) (utilSources : List String)
    (icnSource : String) : String :=
  let func_strings := utilSources.map fun s => "\n" ++ s
  let static0 :=
    ["import os", "import random", "import sys",
     "from typing import Sequence, Mapping, Any, Union", "import torch"]
      ++ func_strings
      ++ ["\n\nadd_comfyui_directory_to_sys_path()\nadd_extra_model_paths()\n"]
  let static_imports :=
    if custom_nodes then static0 ++ ["\n" ++ icnSource ++ "\n"] else static0
  let custom_nodes_call := if custom_nodes then "import_custom_nodes()\n\t" else ""
  let imports_code :=
    ["from nodes import " ++ String.intercalate ", " import_statements]
  let main_function_code :=
    "def main():\n\t" ++ custom_nodes_call ++ "with torch.inference_mode():\n\t\t"
      ++ String.intercalate "\n\t\t" special_functions_code
      ++ "\n\n\t\tfor q in range(" ++ toString queue_size ++ "):\n\t\t"
      ++ String.intercalate "\n\t\t" code
  String.intercalate "\n"
    (static_imports ++ imports_code
      ++ ["", main_function_code, "", "if __name__ == \"__main__\":", "\tmain()"])

/-- `CodeGenerator.generate_workflow`, lines 186–295: run the loop from the
fresh state, then assemble.  The ambient RNG state is the explicit `rng`
argument; the plan, registry, baseline snapshot, repeat count and the
externally read source strings are the call's inputs. -/
def generate_workflow (reg : Registry) (base : List String)
    (utilSources : List String) (icnSource : String)
    (load_order : List LoadEntry) (queue_size : Nat) (rng : RNG) :
    Except PyErr String :=
  match genLoop reg base load_order initGenState rng with
  | .error e => .error e
  | .ok p =>
    .ok (assemble_python_code p.1.import_statements p.1.special_functions_code
          p.1.code queue_size p.1.custom_nodes utilSources icnSource)

section SanityChecks

/-- A self-referencing node (spec §8 scenario): `"1": {inputs: {x: ["1", 0]}}`. -/
def selfRefSpec : NodeSpec := ⟨"SelfRef", [("x", Value.vRef "1" 0)]⟩

def selfRefGraph : Graph := [("1", selfRefSpec)]

def selfRefRegistry : Registry :=
  [("SelfRef", ⟨"sampling", "sample", [], [], some ["x"]⟩)]

example :
    determine_load_order selfRefGraph selfRefRegistry =
      Except.ok [("1", selfRefSpec, false)] := by decide

/-- Two-node sanity check: a loader feeding a consumer. -/
example :
    determine_load_order
      [("1", ⟨"Loader", [("text", Value.vStr "hi")]⟩),
       ("2", ⟨"Consumer", [("text", Value.vRef "1" 0)]⟩)]
      [("Loader", ⟨"loaders", "run", [], [], some ["text"]⟩),
       ("Consumer", ⟨"misc", "run", [], [], some ["text"]⟩)] =
      Except.ok
        [("1", ⟨"Loader", [("text", Value.vStr "hi")]⟩, true),
         ("2", ⟨"Consumer", [("text", Value.vRef "1" 0)]⟩, false)] := by
  decide

example :
    (genLoop [("Loader", ⟨"loaders", "run", [], [], some ["text"]⟩)] ["Loader"]
        [("1", ⟨"Loader", [("text", Value.vStr "hi")]⟩, true)] initGenState []) =
      Except.ok
        (⟨["NODE_CLASS_MAPPINGS", "Loader"], [("1", "loader_1")],
          ["loader = Loader()", "loader_1 = loader.run(text=\"hi\")\n"], [],
          [("Loader", "loader")], false⟩, []) := by
  decide

end SanityChecks

/-! ## Sanitization (`clean_variable_name`): claims C10 and C8 -/

/-- A character survives sanitization (possibly rewritten to `'_'`) exactly
when it is in `[a-z0-9_]` or is a hyphen or a space. -/
lemma isVarChar_cleanChar (c : Char) :
    isVarChar (cleanChar c) = (isVarChar c || c == '-' || c == ' ') := by
  unfold cleanChar
  by_cases h : (c == '-' || c == ' ') = true
  · rcases Bool.or_eq_true _ _ |>.mp h with h1 | h1 <;>
      rw [eq_of_beq h1] <;> decide
  · have h' : (c == '-' || c == ' ') = false := by
      cases hb : (c == '-' || c == ' ') with
      | false => rfl
      | true => exact absurd hb h
    rw [if_neg (by rw [h']; exact Bool.false_ne_true), Bool.or_assoc, h',
      Bool.or_false]

/-- `clean_variable_name` rewritten over the list of surviving source
characters: the sanitized name is the kept characters of the
lowercased-stripped input, each passed through `cleanChar`. -/
lemma clean_variable_name_eq (s : String) :
    clean_variable_name s =
      match ((pyStrip (pyLower s)).data.filter fun c =>
          isVarChar c || c == '-' || c == ' ').map cleanChar with
      | [] => Except.error PyErr.indexError
      | c :: rest =>
        Except.ok
          (if c.isDigit then "_" ++ String.mk (c :: rest)
           else String.mk (c :: rest)) := by
  have h1 : ((pyStrip (pyLower s)).data.map cleanChar).filter isVarChar =
      ((pyStrip (pyLower s)).data.filter fun c =>
        isVarChar c || c == '-' || c == ' ').map cleanChar := by
    rw [List.filter_map]
    congr 1
    exact List.filter_congr fun c _ => by
      simpa using isVarChar_cleanChar c
  simp only [clean_variable_name]
  rw [h1]
  generalize ((pyStrip (pyLower s)).data.filter fun c =>
    isVarChar c || c == '-' || c == ' ').map cleanChar = X
  cases X <;> rfl

/-- Everything `clean_variable_name` accepts yields a nonempty name over
`[a-z0-9_]` that does not start with a digit. -/
lemma clean_ok_props (s v : String) (h : clean_variable_name s = Except.ok v) :
    v.data ≠ [] ∧ v.data.all isVarChar = true ∧
      ∀ c, v.data.head? = some c → c.isDigit = false := by
  rw [clean_variable_name_eq] at h
  cases hLcase : ((pyStrip (pyLower s)).data.filter fun c =>
      isVarChar c || c == '-' || c == ' ').map cleanChar with
  | nil => rw [hLcase] at h; exact absurd h (by simp)
  | cons c rest =>
    have hmem : ∀ x ∈ c :: rest, isVarChar x = true := by
      intro x hx
      rw [← hLcase] at hx
      rcases List.mem_map.mp hx with ⟨a, ha, rfl⟩
      rw [isVarChar_cleanChar]
      exact (List.mem_filter.mp ha).2
    rw [hLcase] at h
    simp only [Except.ok.injEq] at h
    by_cases hd : c.isDigit
    · rw [if_pos hd] at h
      subst h
      have hdata : ("_" ++ String.mk (c :: rest)).data = '_' :: c :: rest := by
        rw [String.data_append]
        rfl
      refine ⟨by rw [hdata]; simp, ?_, ?_⟩
      · rw [hdata]
        simp only [List.all_cons, Bool.and_eq_true]
        refine ⟨by decide, hmem c (List.mem_cons_self c rest), ?_⟩
        rw [List.all_eq_true]
        intro x hx
        exact hmem x (List.mem_cons_of_mem c hx)
      · intro x hx
        rw [hdata] at hx
        simp only [List.head?, Option.some.injEq] at hx
        subst hx
        decide
    · rw [if_neg hd] at h
      subst h
      refine ⟨by simp, ?_, ?_⟩
      · rw [List.all_eq_true]
        intro x hx
        exact hmem x hx
      · intro x hx
        simp only [List.head?, Option.some.injEq] at hx
        subst hx
        cases hdig : c.isDigit with
        | false => rfl
        | true => exact absurd hdig hd

/-- C10 counterexample: `" "` (a single space).  Its lowercased form contains
a space, so the claim's characterization promises a non-empty sanitized name,
yet the code's `.strip()` removes the space first and `clean_name[0]` raises
`IndexError`. -/
theorem claim_C10_counterexample :
    ((pyLower " ").data.any fun c =>
        c.isLower || c.isDigit || c == '_' || c == '-' || c == ' ') = true ∧
      clean_variable_name " " = Except.error PyErr.indexError := by
  decide

/-- C10 as amended: the characterization must be stated on the lowercased
*and stripped* input.  If that string retains a character in
`[a-z0-9_]`, a hyphen or a space, `clean_variable_name` returns a nonempty
name over `[a-z0-9_]` not starting with a digit; otherwise the `clean_name[0]`
access raises `IndexError`. -/
theorem claim_C10_amended (s : String) :
    (((pyStrip (pyLower s)).data.any fun c =>
        isVarChar c || c == '-' || c == ' ') = true →
      ∃ v, clean_variable_name s = Except.ok v ∧ v.data ≠ [] ∧
        v.data.all isVarChar = true ∧
        ∀ c, v.data.head? = some c → c.isDigit = false) ∧
    (((pyStrip (pyLower s)).data.any fun c =>
        isVarChar c || c == '-' || c == ' ') = false →
      clean_variable_name s = Except.error PyErr.indexError) := by
  constructor
  · intro h
    cases hv : clean_variable_name s with
    | ok v => exact ⟨v, rfl, clean_ok_props s v hv⟩
    | error e =>
      exfalso
      rw [clean_variable_name_eq] at hv
      rcases List.any_eq_true.mp h with ⟨c, hc, hcp⟩
      have hin : cleanChar c ∈ ((pyStrip (pyLower s)).data.filter fun c =>
          isVarChar c || c == '-' || c == ' ').map cleanChar :=
        List.mem_map_of_mem _ (List.mem_filter.mpr ⟨hc, hcp⟩)
      cases hLcase : ((pyStrip (pyLower s)).data.filter fun c =>
          isVarChar c || c == '-' || c == ' ').map cleanChar with
      | nil => rw [hLcase] at hin; exact absurd hin (List.not_mem_nil _)
      | cons x rest => rw [hLcase] at hv; exact absurd hv (by simp)
  · intro h
    rw [clean_variable_name_eq]
    have hnil : ((pyStrip (pyLower s)).data.filter fun c =>
        isVarChar c || c == '-' || c == ' ') = [] := by
      rw [List.filter_eq_nil_iff]
      intro a ha hpa
      have hany : ((pyStrip (pyLower s)).data.any fun c =>
          isVarChar c || c == '-' || c == ' ') = true :=
        List.any_eq_true.mpr ⟨a, ha, hpa⟩
      rw [h] at hany
      exact Bool.false_ne_true hany
    rw [hnil]
    rfl

/-- C10 witness: `"KSampler"` sanitizes to `"ksampler"`, and `"!!!"` (the
claim's own example) raises `IndexError`. -/
theorem claim_C10_witness :
    (((pyStrip (pyLower "KSampler")).data.any fun c =>
        isVarChar c || c == '-' || c == ' ') = true →
      ∃ v, clean_variable_name "KSampler" = Except.ok v ∧ v.data ≠ [] ∧
        v.data.all isVarChar = true ∧
        ∀ c, v.data.head? = some c → c.isDigit = false) ∧
    (((pyStrip (pyLower "!!!")).data.any fun c =>
        isVarChar c || c == '-' || c == ' ') = false →
      clean_variable_name "!!!" = Except.error PyErr.indexError) :=
  ⟨(claim_C10_amended "KSampler").1, (claim_C10_amended "!!!").2⟩


/-- Appending distinct id suffixes after `"_"` yields distinct names. -/
lemma append_idx_inj (v idx1 idx2 : String)
    (h : v ++ "_" ++ idx1 = v ++ "_" ++ idx2) : idx1 = idx2 := by
  have hd := congrArg String.data h
  rw [String.data_append, String.data_append, String.data_append,
    String.data_append] at hd
  have hdd : idx1.data = idx2.data := List.append_cancel_left hd
  rcases idx1 with ⟨d1⟩
  rcases idx2 with ⟨d2⟩
  exact congrArg String.mk hdd

/-- C8 counterexample: node ids `"1_2"` (type `"A"`) and `"2"` (type
`"A_1"`) are distinct entries, yet `generate_workflow` assigns both the
result variable `"a_1_2"` — the `node_id` suffix does *not* make variable
names pairwise distinct across all entries. -/
theorem claim_C8_counterexample :
    (genLoop
        [("A", ⟨"c", "fn", [], [], some []⟩), ("A_1", ⟨"c", "fn", [], [], some []⟩)]
        [] [("1_2", ⟨"A", []⟩, true), ("2", ⟨"A_1", []⟩, true)]
        initGenState []).map (fun p => p.1.executed_variables) =
      Except.ok [("1_2", "a_1_2"), ("2", "a_1_2")] ∧
    ("1_2" : String) ≠ "2" ∧ ("A" : String) ≠ "A_1" := by
  decide

/-- C8 as amended: sanitization produces a name over `[a-z0-9_]` not starting
with a digit, and the `node_id` suffix guarantees distinct variable names for
entries *sharing a class type* (the across-all-entries uniqueness fails, see
the counterexample). -/
theorem claim_C8_amended (t idx1 idx2 v : String) (hne : idx1 ≠ idx2)
    (hv : clean_variable_name t = Except.ok v) :
    executedVarName t idx1 = Except.ok (v ++ "_" ++ idx1) ∧
    executedVarName t idx2 = Except.ok (v ++ "_" ++ idx2) ∧
    v ++ "_" ++ idx1 ≠ v ++ "_" ++ idx2 ∧
    v.data.all isVarChar = true ∧
    ∀ c, v.data.head? = some c → c.isDigit = false := by
  obtain ⟨hne', hall, hhead⟩ := clean_ok_props t v hv
  refine ⟨?_, ?_, ?_, hall, hhead⟩
  · unfold executedVarName
    rw [hv]
  · unfold executedVarName
    rw [hv]
  · intro h
    exact hne (append_idx_inj v idx1 idx2 h)

/-- C8 witness: two `"KSampler"` nodes with ids `"3"` and `"4"` get the
distinct variables `ksampler_3` and `ksampler_4`. -/
theorem claim_C8_witness :
    ("3" : String) ≠ "4" ∧
    clean_variable_name "KSampler" = Except.ok "ksampler" ∧
    (executedVarName "KSampler" "3" = Except.ok ("ksampler" ++ "_" ++ "3") ∧
     executedVarName "KSampler" "4" = Except.ok ("ksampler" ++ "_" ++ "4") ∧
     "ksampler" ++ "_" ++ "3" ≠ "ksampler" ++ "_" ++ "4" ∧
     ("ksampler" : String).data.all isVarChar = true ∧
     ∀ c, ("ksampler" : String).data.head? = some c → c.isDigit = false) :=
  ⟨by decide, by decide,
    claim_C8_amended "KSampler" "3" "4" "ksampler" (by decide) (by decide)⟩

/-! ## Seed override (`format_arg`): claim C6 -/

/-- C6: for a parameter named `"seed"` or `"noise_seed"`, the rendered
argument is the fixed randomized expression `random.randint(1, 2**64)`,
independent of the stored value, and consequently the whole emitted call
statement is independent of the stored value: the stored literal is never
rendered. -/
theorem claim_C6 (key : String) (v w : Value) (obj fn varName : String)
    (sp : Bool) (pre post : List (String × Value))
    (h : key = "seed" ∨ key = "noise_seed") :
    format_arg key v = key ++ "=random.randint(1, 2**64)" ∧
    format_arg key v = format_arg key w ∧
    create_function_call_code obj fn varName sp (pre ++ (key, v) :: post) =
      create_function_call_code obj fn varName sp (pre ++ (key, w) :: post) := by
  have hcond : (key == "noise_seed" || key == "seed") = true := by
    rcases h with rfl | rfl <;> decide
  have h1 : ∀ u : Value, format_arg key u = key ++ "=random.randint(1, 2**64)" := by
    intro u
    unfold format_arg
    rw [if_pos hcond]
  refine ⟨h1 v, (h1 v).trans (h1 w).symm, ?_⟩
  unfold create_function_call_code
  have hmap : (pre ++ (key, v) :: post).map (fun kv => format_arg kv.1 kv.2) =
      (pre ++ (key, w) :: post).map (fun kv => format_arg kv.1 kv.2) := by
    rw [List.map_append, List.map_append, List.map_cons, List.map_cons]
    rw [show format_arg key v = format_arg key w from (h1 v).trans (h1 w).symm]
  rw [hmap]

/-- C6 witness: a `"seed"` parameter storing `42` renders as the randomized
expression, identically to one storing a string. -/
theorem claim_C6_witness :
    (("seed" : String) = "seed" ∨ ("seed" : String) = "noise_seed") ∧
    (format_arg "seed" (Value.vInt 42) = "seed" ++ "=random.randint(1, 2**64)" ∧
     format_arg "seed" (Value.vInt 42) = format_arg "seed" (Value.vStr "x") ∧
     create_function_call_code "obj" "fn" "v1" true
         ([("a", Value.vInt 1)] ++ ("seed", Value.vInt 42) :: []) =
       create_function_call_code "obj" "fn" "v1" true
         ([("a", Value.vInt 1)] ++ ("seed", Value.vStr "x") :: [])) :=
  ⟨Or.inl rfl,
    claim_C6 "seed" (Value.vInt 42) (Value.vStr "x") "obj" "fn" "v1" true
      [("a", Value.vInt 1)] [] (Or.inl rfl)⟩

/-! ## Unknown node types: claim C7 -/

/-- C7 counterexample: two one-node graphs that differ only in the node id
(`"7"` vs `"8"`), both of the unregistered type `"Foo"`, fail — in the
resolver and in the synthesizer — with the *identical* error
`KeyError("Foo")`.  The error names the offending type but cannot identify
the offending node id, refuting the claim that it identifies both. -/
theorem claim_C7_counterexample :
    determine_load_order [("7", ⟨"Foo", []⟩)] [] =
        Except.error (PyErr.keyError "Foo") ∧
    determine_load_order [("8", ⟨"Foo", []⟩)] [] =
        Except.error (PyErr.keyError "Foo") ∧
    generate_workflow [] [] [] "" [("7", ⟨"Foo", []⟩, true)] 1 [] =
        Except.error (PyErr.keyError "Foo") ∧
    generate_workflow [] [] [] "" [("8", ⟨"Foo", []⟩, true)] 1 [] =
        Except.error (PyErr.keyError "Foo") := by
  decide

/-! ## No cycle detection: claim C1 -/

/-- C1 counterexample: the spec's own self-reference scenario.  On
`"1": {inputs: {x: ["1", 0]}}` the resolver does *not* fail with any error:
`_dfs` marks the node visited before descending, the self-edge is skipped,
and a complete one-entry plan is returned. -/
theorem claim_C1_counterexample :
    determine_load_order selfRefGraph selfRefRegistry =
      Except.ok [("1", selfRefSpec, false)] := by
  decide

/-- C1 as amended: the resolver performs no cycle detection at all.  For any
self-referencing single node (of a type that is neither a loader nor an
encoder, hence not special), `determine_load_order` terminates normally and
returns the complete one-entry plan instead of raising an error. -/
theorem claim_C1_amended (n k t : String) (i : Int) (cd : ClassDef)
    (hcat : cd.category ≠ "loaders") (hfn : cd.function ≠ "encode") :
    determine_load_order [(n, ⟨t, [(k, Value.vRef n i)]⟩)] [(t, cd)] =
      Except.ok [(n, ⟨t, [(k, Value.vRef n i)]⟩, false)] := by
  have hc1 : (cd.category == "loaders") = false := beq_eq_false_iff_ne.mpr hcat
  have hc2 : (cd.function == "encode") = false := beq_eq_false_iff_ne.mpr hfn
  simp [determine_load_order, resolverFuel, load_special_functions_first,
    mainPass, dfsAux, lookupG, isSpecial, hc1, hc2]

/-- C1 witness for the amended statement, at the spec's concrete scenario. -/
theorem claim_C1_witness :
    (("sampling" : String) ≠ "loaders") ∧ (("sample" : String) ≠ "encode") ∧
    determine_load_order [("1", ⟨"SelfRef", [("x", Value.vRef "1" 0)]⟩)]
        [("SelfRef", ⟨"sampling", "sample", [], [], some ["x"]⟩)] =
      Except.ok [("1", ⟨"SelfRef", [("x", Value.vRef "1" 0)]⟩, false)] :=
  ⟨by decide, by decide,
    claim_C1_amended "1" "x" "SelfRef" 0 ⟨"sampling", "sample", [], [], some ["x"]⟩
      (by decide) (by decide)⟩

/-! ## Silent skip on missing required inputs: claim C5 -/

/-- Whether an `Except` result carries a value (used to observe "synthesis
still produced output"). -/
def isOkB {α : Type} : Except PyErr α → Bool
  | .ok _ => true
  | .error _ => false

/-- An entry whose type declares a required parameter absent from its inputs
is skipped by `genStep` with the state and the RNG untouched and no error. -/
lemma genStep_skip (reg : Registry) (base : List String) (e : LoadEntry)
    (st : GenState) (rng : RNG) (cd : ClassDef)
    (hcd : lookupG reg e.2.1.class_type = some cd)
    (r : String) (hr : r ∈ cd.required)
    (habs : ∀ kv ∈ e.2.1.inputs, kv.1 ≠ r) :
    genStep reg base e st rng = Except.ok (st, rng) := by
  have hinputs : (e.2.1.inputs.any fun kv => kv.1 == r) = false := by
    rw [List.any_eq_false]
    intro kv hkv
    intro hbeq
    exact habs kv hkv (eq_of_beq hbeq)
  have hcond :
      (cd.required.any fun p => !(e.2.1.inputs.any fun kv => kv.1 == p)) = true := by
    apply List.any_eq_true.mpr
    exact ⟨r, hr, by rw [hinputs]; rfl⟩
  simp only [genStep, hcd]
  rw [if_pos hcond]

/-- Deleting a skipped entry anywhere in the plan leaves the whole loop's
result unchanged. -/
lemma genLoop_skip_middle (reg : Registry) (base : List String) (e : LoadEntry)
    (hskip : ∀ st rng, genStep reg base e st rng = Except.ok (st, rng)) :
    ∀ (pre post : List LoadEntry) (st : GenState) (rng : RNG),
      genLoop reg base (pre ++ e :: post) st rng =
        genLoop reg base (pre ++ post) st rng := by
  intro pre
  induction pre with
  | nil =>
    intro post st rng
    simp only [List.nil_append, genLoop]
    rw [hskip st rng]
  | cons p pre ih =>
    intro post st rng
    simp only [List.cons_append, genLoop]
    cases hstep : genStep reg base p st rng with
    | error err => rfl
    | ok q => exact ih post q.1 q.2

/-- C5: when a load-order entry's node type declares a required parameter
name absent from the entry's inputs, `generate_workflow` emits no statement
for it and raises no exception: the run on the plan with the entry equals the
run on the plan without it, so synthesis continues with the remaining entries
and produces exactly their output. -/
theorem claim_C5 (reg : Registry) (base utilSources : List String)
    (icnSource : String) (pre post : List LoadEntry) (e : LoadEntry)
    (q : Nat) (rng : RNG) (cd : ClassDef)
    (hcd : lookupG reg e.2.1.class_type = some cd)
    (r : String) (hr : r ∈ cd.required)
    (habs : ∀ kv ∈ e.2.1.inputs, kv.1 ≠ r) :
    generate_workflow reg base utilSources icnSource (pre ++ e :: post) q rng =
      generate_workflow reg base utilSources icnSource (pre ++ post) q rng := by
  unfold generate_workflow
  rw [genLoop_skip_middle reg base e
    (fun st rng => genStep_skip reg base e st rng cd hcd r hr habs)
    pre post initGenState rng]

/-- The C5 witness scenario: a `"Bad"` entry whose required `"x"` is missing,
followed by a healthy `"Loader"` entry. -/
def c5CD : ClassDef := ⟨"c", "fn", ["x"], [], some ["x", "y"]⟩

def c5Reg : Registry :=
  [("Bad", c5CD), ("Loader", ⟨"loaders", "run", [], [], some ["text"]⟩)]

def c5Bad : LoadEntry := ("9", ⟨"Bad", [("y", Value.vInt 0)]⟩, true)

def c5Good : LoadEntry := ("1", ⟨"Loader", [("text", Value.vStr "hi")]⟩, true)

/-- C5 witness: deleting the `"Bad"` entry (required `"x"` missing) changes
nothing, and the run still produces output. -/
theorem claim_C5_witness :
    lookupG c5Reg c5Bad.2.1.class_type = some c5CD ∧
    "x" ∈ c5CD.required ∧
    (∀ kv ∈ c5Bad.2.1.inputs, kv.1 ≠ "x") ∧
    generate_workflow c5Reg [] [] "" ([] ++ c5Bad :: [c5Good]) 1 [] =
      generate_workflow c5Reg [] [] "" ([] ++ [c5Good]) 1 [] ∧
    isOkB (generate_workflow c5Reg [] [] "" ([] ++ c5Bad :: [c5Good]) 1 []) =
      true := by
  refine ⟨by decide, by decide, by decide, ?_, by decide⟩
  exact claim_C5 c5Reg [] [] "" [] [c5Good] c5Bad 1 [] c5CD (by decide) "x"
    (by decide) (by decide)

/-! ## Generation-time randomness: claim C3 -/

set_option maxRecDepth 100000 in
/-- C3 counterexample: a node whose callable declares a `unique_id` parameter
makes `generate_workflow` call `random.randint` at generation time; two calls
on identical plan/registry/repeat inputs but different ambient RNG states
return different source text — generation is not a pure function of
(plan, registry, repeat_count). -/
theorem claim_C3_counterexample :
    generate_workflow [("UIDNode", ⟨"cat", "fn", [], [], some ["a", "unique_id"]⟩)]
        [] [] "" [("1", ⟨"UIDNode", [("a", Value.vInt 1)]⟩, true)] 2 [5] ≠
      generate_workflow [("UIDNode", ⟨"cat", "fn", [], [], some ["a", "unique_id"]⟩)]
        [] [] "" [("1", ⟨"UIDNode", [("a", Value.vInt 1)]⟩, true)] 2 [7] := by
  decide

/-- An entry that cannot trigger a generation-time `random.randint` call: its
type (if registered) neither hides a `unique_id` input nor lists `unique_id`
among the callable's parameters. -/
def entryNoUid (reg : Registry) (e : LoadEntry) : Bool :=
  match lookupG reg e.2.1.class_type with
  | none => true
  | some cd =>
    !(cd.hidden.contains "unique_id") &&
      (match cd.params with
       | some ps => !(ps.contains "unique_id")
       | none => true)

/-- No entry of the plan can trigger a generation-time `random.randint`. -/
def noUidB (reg : Registry) (lo : List LoadEntry) : Bool :=
  lo.all (entryNoUid reg)

/-- `genStepRest` neither consumes nor depends on the RNG when the class
requests no `unique_id`. -/
lemma genStepRest_rng (cd : ClassDef) (idx : String) (data : NodeSpec)
    (sp : Bool) (obj : String) (st : GenState)
    (h1 : cd.hidden.contains "unique_id" = false)
    (h2 : ∀ ps, cd.params = some ps → ps.contains "unique_id" = false)
    (rng rng' : RNG) :
    genStepRest cd idx data sp obj st rng =
      (match genStepRest cd idx data sp obj st rng' with
       | .ok p => .ok (p.1, rng)
       | .error err => .error err) := by
  cases hps : cd.params with
  | none =>
    simp only [genStepRest, h1, hps, Bool.false_eq_true, if_false]
    cases hev : executedVarName data.class_type idx with
    | error er => rfl
    | ok var => cases sp <;> rfl
  | some ps =>
    have hps2 := h2 ps hps
    simp only [genStepRest, h1, hps, hps2, Bool.false_eq_true, if_false]
    cases hev : executedVarName data.class_type idx with
    | error er => rfl
    | ok var => cases sp <;> rfl

/-- `genStep` neither consumes nor depends on the RNG on a `entryNoUid`
entry. -/
lemma genStep_rng (reg : Registry) (base : List String) (e : LoadEntry)
    (st : GenState) (he : entryNoUid reg e = true) (rng rng' : RNG) :
    genStep reg base e st rng =
      (match genStep reg base e st rng' with
       | .ok p => .ok (p.1, rng)
       | .error err => .error err) := by
  unfold entryNoUid at he
  cases hcd : lookupG reg e.2.1.class_type with
  | none => simp only [genStep, hcd]
  | some cd =>
    rw [hcd] at he
    have he' : (!(cd.hidden.contains "unique_id") &&
        (match cd.params with
         | some ps => !(ps.contains "unique_id")
         | none => true)) = true := he
    have h1 : cd.hidden.contains "unique_id" = false := by
      cases hh : cd.hidden.contains "unique_id" with
      | false => rfl
      | true => rw [hh] at he'; exact absurd he' (by simp)
    have h2 : ∀ ps, cd.params = some ps → ps.contains "unique_id" = false := by
      intro ps hps
      have he2 : (!(cd.hidden.contains "unique_id") &&
          !(ps.contains "unique_id")) = true := by
        rw [hps] at he'
        exact he'
      cases hh : ps.contains "unique_id" with
      | false => rfl
      | true => rw [hh] at he2; simp at he2
    simp only [genStep, hcd]
    by_cases hreq :
        (cd.required.any fun p => !(e.2.1.inputs.any fun kv => kv.1 == p)) = true
    · rw [if_pos hreq, if_pos hreq]
    · rw [if_neg hreq, if_neg hreq]
      cases hio : lookupG st.initialized_objects e.2.1.class_type with
      | none =>
        by_cases hpv : (e.2.1.class_type == "PreviewImage") = true
        · rw [if_pos hpv, if_pos hpv]
        · rw [if_neg hpv, if_neg hpv]
          cases hcl : clean_variable_name e.2.1.class_type with
          | error er => rfl
          | ok vn => exact genStepRest_rng cd e.1 e.2.1 e.2.2 vn _ h1 h2 rng rng'
      | some obj => exact genStepRest_rng cd e.1 e.2.1 e.2.2 obj st h1 h2 rng rng'

/-- Over a `noUidB` plan the whole loop ignores the RNG. -/
lemma genLoop_rng (reg : Registry) (base : List String) :
    ∀ (lo : List LoadEntry) (st : GenState) (rng rng' : RNG),
      noUidB reg lo = true →
      genLoop reg base lo st rng =
        (match genLoop reg base lo st rng' with
         | .ok p => .ok (p.1, rng)
         | .error err => .error err) := by
  intro lo
  induction lo with
  | nil => intro st rng rng' _; rfl
  | cons e rest ih =>
    intro st rng rng' h
    have he : entryNoUid reg e = true :=
      List.all_eq_true.mp h e (List.mem_cons_self e rest)
    have hrest : noUidB reg rest = true := by
      rw [noUidB, List.all_eq_true]
      intro x hx
      exact List.all_eq_true.mp h x (List.mem_cons_of_mem e hx)
    simp only [genLoop]
    rw [genStep_rng reg base e st he rng rng']
    cases hs : genStep reg base e st rng' with
    | error err => rfl
    | ok p => exact ih p.1 rng p.2 hrest

/-- C3 as amended: `generate_workflow` is deterministic in
(plan, registry, baseline, repeat count, external sources) *provided* no
entry's class declares a `unique_id` parameter (hidden or positional); such
entries trigger `random.randint` at generation time, which reads the
process-wide RNG (see the counterexample), so in general only the plan plus
the ambient RNG state determine the output. -/
theorem claim_C3_amended (reg : Registry) (base utilSources : List String)
    (icnSource : String) (lo : List LoadEntry) (q : Nat) (rng rng' : RNG)
    (h : noUidB reg lo = true) :
    generate_workflow reg base utilSources icnSource lo q rng =
      generate_workflow reg base utilSources icnSource lo q rng' := by
  unfold generate_workflow
  rw [genLoop_rng reg base lo initGenState rng rng' h]
  cases genLoop reg base lo initGenState rng' with
  | error e => rfl
  | ok p => rfl

/-- C3 witness: a plan without `unique_id` generates identical text from two
different RNG states. -/
theorem claim_C3_witness :
    noUidB [("Loader", ⟨"loaders", "run", [], [], some ["text"]⟩)]
        [("1", ⟨"Loader", [("text", Value.vStr "hi")]⟩, true)] = true ∧
    generate_workflow [("Loader", ⟨"loaders", "run", [], [], some ["text"]⟩)]
        [] [] "" [("1", ⟨"Loader", [("text", Value.vStr "hi")]⟩, true)] 1 [5] =
      generate_workflow [("Loader", ⟨"loaders", "run", [], [], some ["text"]⟩)]
        [] [] "" [("1", ⟨"Loader", [("text", Value.vStr "hi")]⟩, true)] 1 [7] :=
  ⟨by decide,
    claim_C3_amended [("Loader", ⟨"loaders", "run", [], [], some ["text"]⟩)]
      [] [] "" [("1", ⟨"Loader", [("text", Value.vStr "hi")]⟩, true)] 1 [5] [7]
      (by decide)⟩

/-! ## Resolver analysis: dependency edges, reachability, topological
soundness (claims C2, C4, C9, and C7's resolver half) -/

/-- The ids of a plan, in order. -/
def loadIds (l : List LoadEntry) : List String := l.map fun e => e.1

/-- The dependency edge relation the resolver walks: `a → b` when node `a`'s
spec has a list-valued input `[b, j]`. -/
def Edge (g : Graph) (a b : String) : Prop :=
  ∃ spec, lookupG g a = some spec ∧ ∃ k j, (k, Value.vRef b j) ∈ spec.inputs

/-- Reflexive-transitive reachability along `Edge`. -/
inductive Reach (g : Graph) : String → String → Prop
  | refl (a : String) : Reach g a a
  | step {a b c : String} : Edge g a b → Reach g b c → Reach g a c

/-- The dependency graph has no (nonempty) cycle. -/
def Acyclic (g : Graph) : Prop := ∀ a b, Edge g a b → Reach g b a → False

lemma reach_trans {g : Graph} {a b c : String}
    (h1 : Reach g a b) (h2 : Reach g b c) : Reach g a c := by
  induction h1 with
  | refl => exact h2
  | step e _ ih => exact Reach.step e (ih h2)

lemma lookupG_mem {α : Type} (l : List (String × α)) (k : String) (v : α)
    (h : lookupG l k = some v) : (k, v) ∈ l := by
  induction l with
  | nil => exact absurd h (by simp [lookupG])
  | cons p rest ih =>
    obtain ⟨k', w⟩ := p
    rw [lookupG] at h
    by_cases hk : (k' == k) = true
    · rw [if_pos hk] at h
      cases h
      rw [← eq_of_beq hk]
      exact List.mem_cons_self _ _
    · rw [if_neg hk] at h
      exact List.mem_cons_of_mem _ (ih h)

lemma lookupG_isSome_of_mem {α : Type} (l : List (String × α)) (k : String)
    (h : k ∈ l.map Prod.fst) : ∃ v, lookupG l k = some v := by
  induction l with
  | nil => exact absurd h (by simp)
  | cons p rest ih =>
    obtain ⟨k', w⟩ := p
    by_cases hk : (k' == k) = true
    · exact ⟨w, by rw [lookupG, if_pos hk]⟩
    · have hmem : k ∈ rest.map Prod.fst := by
        rcases List.mem_cons.mp h with h1 | h1
        · exact absurd (beq_iff_eq.mpr h1.symm) hk
        · exact h1
      obtain ⟨v, hv⟩ := ih hmem
      exact ⟨v, by rw [lookupG, if_neg hk]; exact hv⟩

lemma mem_of_lookupG {α : Type} (l : List (String × α)) (k : String) (v : α)
    (h : lookupG l k = some v) : k ∈ l.map Prod.fst := by
  have := lookupG_mem l k v h
  exact List.mem_map.mpr ⟨(k, v), this, rfl⟩

/-- A decidable sufficient criterion for `Acyclic`: a rank function strictly
decreasing along every edge. -/
lemma acyclic_of_rank (g : Graph) (r : String → Nat)
    (h : ∀ ks ∈ g, ∀ kv ∈ ks.2.inputs, ∀ src j, kv.2 = Value.vRef src j →
      r src < r ks.1) : Acyclic g := by
  have hreach : ∀ a b, Reach g a b → r b ≤ r a := by
    intro a b hr
    induction hr with
    | refl => exact Nat.le_refl _
    | step e _ ih =>
      rcases e with ⟨spec, hlk, k, j, hin⟩
      exact Nat.le_trans ih (Nat.le_of_lt (h _ (lookupG_mem _ _ _ hlk) _ hin _ j rfl))
  intro a b he hr
  rcases he with ⟨spec, hlk, k, j, hin⟩
  have h1 : r b < r a := h _ (lookupG_mem _ _ _ hlk) _ hin _ j rfl
  have h2 : r a ≤ r b := hreach b a hr
  omega

/-- All references of a spec point at already-seen ids. -/
def depsSeen (seen : List String) (spec : NodeSpec) : Bool :=
  spec.inputs.all fun kv =>
    match kv.2 with
    | Value.vRef src _ => seen.contains src
    | _ => true

/-- Topological soundness of a plan, relative to previously seen ids: every
Reference of every entry points at an id appearing strictly earlier. -/
def topoOk (seen : List String) : List LoadEntry → Bool
  | [] => true
  | e :: rest => depsSeen seen e.2.1 && topoOk (seen ++ [e.1]) rest

/-- Every Reference's source id is a key of the graph. -/
def noDanglingB (g : Graph) : Bool :=
  g.all fun ks => ks.2.inputs.all fun kv =>
    match kv.2 with
    | Value.vRef src _ => (g.map Prod.fst).contains src
    | _ => true

/-- Every node's `class_type` is present in the registry. -/
def allRegisteredB (g : Graph) (reg : Registry) : Bool :=
  g.all fun ks => (lookupG reg ks.2.class_type).isSome

/-- Remaining DFS work: total weight of the graph entries not yet visited. -/
def su (g : Graph) (V : List String) : Nat :=
  ((g.filter fun ks => !(V.contains ks.1)).map fun ks =>
    2 + ks.2.inputs.length).sum

/-- A successful DFS call only grows `visited` and appends to `load_order`. -/
lemma dfsAux_mono (g : Graph) (flag : Bool) :
    ∀ (fuel : Nat) (task : String ⊕ List (String × Value)) (st st' : RState),
      dfsAux g flag fuel task st = .ok st' →
      (∀ x ∈ st.visited, x ∈ st'.visited) ∧
      (∃ d, st'.load_order = st.load_order ++ d) := by
  intro fuel
  induction fuel with
  | zero =>
    intro task st st' h
    exact absurd h (by simp [dfsAux])
  | succ f ih =>
    intro task st st' h
    cases task with
    | inl key =>
      simp only [dfsAux] at h
      split at h
      · exact absurd h (by simp)
      · rename_i spec hlk
        split at h
        · exact absurd h (by simp)
        · rename_i st2 hrec
          simp only [Except.ok.injEq] at h
          subst h
          obtain ⟨hv, d, hl⟩ := ih _ _ _ hrec
          refine ⟨fun x hx => hv x (List.mem_cons_of_mem _ hx),
            d ++ [(key, spec, flag)], ?_⟩
          simp only [hl, List.append_assoc]
    | inr vals =>
      cases vals with
      | nil =>
        simp only [dfsAux, Except.ok.injEq] at h
        subst h
        exact ⟨fun x hx => hx, [], by simp⟩
      | cons kv rest =>
        obtain ⟨k, v⟩ := kv
        cases v with
        | vRef src j =>
          simp only [dfsAux] at h
          by_cases hsrc : src ∈ st.visited
          · rw [if_pos hsrc] at h
            exact ih _ _ _ h
          · rw [if_neg hsrc] at h
            split at h
            · exact absurd h (by simp)
            · rename_i stm hm
              obtain ⟨hv1, d1, hl1⟩ := ih _ _ _ hm
              obtain ⟨hv2, d2, hl2⟩ := ih _ _ _ h
              exact ⟨fun x hx => hv2 x (hv1 x hx), d1 ++ d2, by
                rw [hl2, hl1, List.append_assoc]⟩
        | vStr s => simp only [dfsAux] at h; exact ih _ _ _ h
        | vInt n => simp only [dfsAux] at h; exact ih _ _ _ h
        | vBool b => simp only [dfsAux] at h; exact ih _ _ _ h
        | vVar s => simp only [dfsAux] at h; exact ih _ _ _ h

/-- Every id a DFS call appends was unvisited when the call started (the
top-level key by the caller's guard, descendants by the recursion's guard). -/
lemma dfsAux_new_ids (g : Graph) (flag : Bool) :
    ∀ (fuel : Nat) (task : String ⊕ List (String × Value)) (st st' : RState),
      dfsAux g flag fuel task st = .ok st' →
      (∀ key, task = .inl key → key ∉ st.visited) →
      ∀ i ∈ loadIds st'.load_order,
        i ∈ loadIds st.load_order ∨ i ∉ st.visited := by
  intro fuel
  induction fuel with
  | zero =>
    intro task st st' h
    exact absurd h (by simp [dfsAux])
  | succ f ih =>
    intro task st st' h hpre
    cases task with
    | inl key =>
      have hkey : key ∉ st.visited := hpre key rfl
      simp only [dfsAux] at h
      split at h
      · exact absurd h (by simp)
      · rename_i spec hlk
        split at h
        · exact absurd h (by simp)
        · rename_i st2 hrec
          simp only [Except.ok.injEq] at h
          subst h
          intro i hi
          simp only [loadIds, List.map_append] at hi
          rcases List.mem_append.mp hi with hi | hi
          · rcases ih _ _ _ hrec (fun _ hk => nomatch hk) i hi with h1 | h1
            · exact Or.inl h1
            · exact Or.inr fun hc => h1 (List.mem_cons_of_mem _ hc)
          · simp only [List.map_cons, List.map_nil, List.mem_singleton] at hi
            subst hi
            exact Or.inr hkey
    | inr vals =>
      cases vals with
      | nil =>
        simp only [dfsAux, Except.ok.injEq] at h
        subst h
        intro i hi
        exact Or.inl hi
      | cons kv rest =>
        obtain ⟨k, v⟩ := kv
        cases v with
        | vRef src j =>
          simp only [dfsAux] at h
          by_cases hsrc : src ∈ st.visited
          · rw [if_pos hsrc] at h
            exact ih _ _ _ h (fun _ hk => nomatch hk)
          · rw [if_neg hsrc] at h
            split at h
            · exact absurd h (by simp)
            · rename_i stm hm
              intro i hi
              obtain ⟨hv1, _⟩ := dfsAux_mono g flag f _ _ _ hm
              rcases ih _ _ _ h (fun _ hk => nomatch hk) i hi with h1 | h1
              · rcases ih _ _ _ hm (fun key hk => by cases hk; exact hsrc)
                    i h1 with h2 | h2
                · exact Or.inl h2
                · exact Or.inr h2
              · exact Or.inr fun hc => h1 (hv1 i hc)
        | vStr s =>
          simp only [dfsAux] at h
          exact ih _ _ _ h (fun _ hk => nomatch hk)
        | vInt n =>
          simp only [dfsAux] at h
          exact ih _ _ _ h (fun _ hk => nomatch hk)
        | vBool b =>
          simp only [dfsAux] at h
          exact ih _ _ _ h (fun _ hk => nomatch hk)
        | vVar s =>
          simp only [dfsAux] at h
          exact ih _ _ _ h (fun _ hk => nomatch hk)

/-- DFS preserves: plan ids are pairwise distinct and all marked visited. -/
lemma dfsAux_nodup (g : Graph) (flag : Bool) :
    ∀ (fuel : Nat) (task : String ⊕ List (String × Value)) (st st' : RState),
      dfsAux g flag fuel task st = .ok st' →
      (∀ key, task = .inl key → key ∉ st.visited) →
      (loadIds st.load_order).Nodup →
      (∀ i ∈ loadIds st.load_order, i ∈ st.visited) →
      (loadIds st'.load_order).Nodup ∧
        ∀ i ∈ loadIds st'.load_order, i ∈ st'.visited := by
  intro fuel
  induction fuel with
  | zero =>
    intro task st st' h
    exact absurd h (by simp [dfsAux])
  | succ f ih =>
    intro task st st' h hpre hnd hsub
    cases task with
    | inl key =>
      have hkey : key ∉ st.visited := hpre key rfl
      simp only [dfsAux] at h
      split at h
      · exact absurd h (by simp)
      · rename_i spec hlk
        split at h
        · exact absurd h (by simp)
        · rename_i st2 hrec
          simp only [Except.ok.injEq] at h
          subst h
          obtain ⟨hnd2, hsub2⟩ := ih _ _ _ hrec (fun _ hk => nomatch hk) hnd
            (fun i hi => List.mem_cons_of_mem _ (hsub i hi))
          obtain ⟨hv1, _⟩ := dfsAux_mono g flag f _ _ _ hrec
          have hknotin : key ∉ loadIds st2.load_order := by
            intro hc
            rcases dfsAux_new_ids g flag f _ _ _ hrec (fun _ hk => nomatch hk)
                key hc with h1 | h1
            · exact hkey (hsub key h1)
            · exact h1 (List.mem_cons_self _ _)
          constructor
          · simp only [loadIds, List.map_append, List.map_cons, List.map_nil]
            rw [List.nodup_append]
            refine ⟨hnd2, List.nodup_singleton _, ?_⟩
            intro a ha hb
            simp only [List.mem_singleton] at hb
            subst hb
            exact hknotin ha
          · intro i hi
            simp only [loadIds, List.map_append, List.map_cons, List.map_nil] at hi
            rcases List.mem_append.mp hi with hi | hi
            · exact hsub2 i hi
            · simp only [List.mem_singleton] at hi
              subst hi
              exact hv1 i (List.mem_cons_self _ _)
    | inr vals =>
      cases vals with
      | nil =>
        simp only [dfsAux, Except.ok.injEq] at h
        subst h
        exact ⟨hnd, hsub⟩
      | cons kv rest =>
        obtain ⟨k, v⟩ := kv
        cases v with
        | vRef src j =>
          simp only [dfsAux] at h
          by_cases hsrc : src ∈ st.visited
          · rw [if_pos hsrc] at h
            exact ih _ _ _ h (fun _ hk => nomatch hk) hnd hsub
          · rw [if_neg hsrc] at h
            split at h
            · exact absurd h (by simp)
            · rename_i stm hm
              obtain ⟨hndm, hsubm⟩ := ih _ _ _ hm
                (fun key hk => by cases hk; exact hsrc) hnd hsub
              exact ih _ _ _ h (fun _ hk => nomatch hk) hndm hsubm
        | vStr s =>
          simp only [dfsAux] at h
          exact ih _ _ _ h (fun _ hk => nomatch hk) hnd hsub
        | vInt n =>
          simp only [dfsAux] at h
          exact ih _ _ _ h (fun _ hk => nomatch hk) hnd hsub
        | vBool b =>
          simp only [dfsAux] at h
          exact ih _ _ _ h (fun _ hk => nomatch hk) hnd hsub
        | vVar s =>
          simp only [dfsAux] at h
          exact ih _ _ _ h (fun _ hk => nomatch hk) hnd hsub

/-- Every id a DFS call appends is a key of the graph (it survived the
`self.data[key]` lookup). -/
lemma dfsAux_ids_in_graph (g : Graph) (flag : Bool) :
    ∀ (fuel : Nat) (task : String ⊕ List (String × Value)) (st st' : RState),
      dfsAux g flag fuel task st = .ok st' →
      ∀ i ∈ loadIds st'.load_order,
        i ∈ loadIds st.load_order ∨ i ∈ g.map Prod.fst := by
  intro fuel
  induction fuel with
  | zero =>
    intro task st st' h
    exact absurd h (by simp [dfsAux])
  | succ f ih =>
    intro task st st' h
    cases task with
    | inl key =>
      simp only [dfsAux] at h
      split at h
      · exact absurd h (by simp)
      · rename_i spec hlk
        split at h
        · exact absurd h (by simp)
        · rename_i st2 hrec
          simp only [Except.ok.injEq] at h
          subst h
          intro i hi
          simp only [loadIds, List.map_append, List.map_cons, List.map_nil] at hi
          rcases List.mem_append.mp hi with hi | hi
          · exact ih _ _ _ hrec i hi
          · simp only [List.mem_singleton] at hi
            subst hi
            exact Or.inr (mem_of_lookupG g i spec hlk)
    | inr vals =>
      cases vals with
      | nil =>
        simp only [dfsAux, Except.ok.injEq] at h
        subst h
        exact fun i hi => Or.inl hi
      | cons kv rest =>
        obtain ⟨k, v⟩ := kv
        cases v with
        | vRef src j =>
          simp only [dfsAux] at h
          by_cases hsrc : src ∈ st.visited
          · rw [if_pos hsrc] at h
            exact ih _ _ _ h
          · rw [if_neg hsrc] at h
            split at h
            · exact absurd h (by simp)
            · rename_i stm hm
              intro i hi
              rcases ih _ _ _ h i hi with h1 | h1
              · exact ih _ _ _ hm i h1
              · exact Or.inr h1
        | vStr s => simp only [dfsAux] at h; exact ih _ _ _ h
        | vInt n => simp only [dfsAux] at h; exact ih _ _ _ h
        | vBool b => simp only [dfsAux] at h; exact ih _ _ _ h
        | vVar s => simp only [dfsAux] at h; exact ih _ _ _ h

/-- Every key a DFS call marks visited it also appends to the plan. -/
lemma dfsAux_visited_appended (g : Graph) (flag : Bool) :
    ∀ (fuel : Nat) (task : String ⊕ List (String × Value)) (st st' : RState),
      dfsAux g flag fuel task st = .ok st' →
      ∀ x ∈ st'.visited, x ∈ st.visited ∨ x ∈ loadIds st'.load_order := by
  intro fuel
  induction fuel with
  | zero =>
    intro task st st' h
    exact absurd h (by simp [dfsAux])
  | succ f ih =>
    intro task st st' h
    cases task with
    | inl key =>
      simp only [dfsAux] at h
      split at h
      · exact absurd h (by simp)
      · rename_i spec hlk
        split at h
        · exact absurd h (by simp)
        · rename_i st2 hrec
          simp only [Except.ok.injEq] at h
          subst h
          intro x hx
          have hkeyid : key ∈ loadIds (st2.load_order ++ [(key, spec, flag)]) := by
            simp [loadIds]
          rcases ih _ _ _ hrec x hx with h1 | h1
          · rcases List.mem_cons.mp h1 with h2 | h2
            · subst h2
              exact Or.inr hkeyid
            · exact Or.inl h2
          · refine Or.inr ?_
            simp only [loadIds, List.map_append]
            exact List.mem_append.mpr (Or.inl h1)
    | inr vals =>
      cases vals with
      | nil =>
        simp only [dfsAux, Except.ok.injEq] at h
        subst h
        exact fun x hx => Or.inl hx
      | cons kv rest =>
        obtain ⟨k, v⟩ := kv
        cases v with
        | vRef src j =>
          simp only [dfsAux] at h
          by_cases hsrc : src ∈ st.visited
          · rw [if_pos hsrc] at h
            exact ih _ _ _ h
          · rw [if_neg hsrc] at h
            split at h
            · exact absurd h (by simp)
            · rename_i stm hm
              intro x hx
              obtain ⟨_, d, hd⟩ := dfsAux_mono g flag f _ _ _ h
              rcases ih _ _ _ h x hx with h1 | h1
              · rcases ih _ _ _ hm x h1 with h2 | h2
                · exact Or.inl h2
                · refine Or.inr ?_
                  rw [hd]
                  simp only [loadIds, List.map_append]
                  exact List.mem_append.mpr (Or.inl h2)
              · exact Or.inr h1
        | vStr s => simp only [dfsAux] at h; exact ih _ _ _ h
        | vInt n => simp only [dfsAux] at h; exact ih _ _ _ h
        | vBool b => simp only [dfsAux] at h; exact ih _ _ _ h
        | vVar s => simp only [dfsAux] at h; exact ih _ _ _ h

/-- Every entry a DFS call appends carries the flag it was called with. -/
lemma dfsAux_flag (g : Graph) (flag : Bool) :
    ∀ (fuel : Nat) (task : String ⊕ List (String × Value)) (st st' : RState),
      dfsAux g flag fuel task st = .ok st' →
      ∀ e ∈ st'.load_order, e ∈ st.load_order ∨ e.2.2 = flag := by
  intro fuel
  induction fuel with
  | zero =>
    intro task st st' h
    exact absurd h (by simp [dfsAux])
  | succ f ih =>
    intro task st st' h
    cases task with
    | inl key =>
      simp only [dfsAux] at h
      split at h
      · exact absurd h (by simp)
      · rename_i spec hlk
        split at h
        · exact absurd h (by simp)
        · rename_i st2 hrec
          simp only [Except.ok.injEq] at h
          subst h
          intro e he
          rcases List.mem_append.mp he with he | he
          · exact ih _ _ _ hrec e he
          · simp only [List.mem_singleton] at he
            subst he
            exact Or.inr rfl
    | inr vals =>
      cases vals with
      | nil =>
        simp only [dfsAux, Except.ok.injEq] at h
        subst h
        exact fun e he => Or.inl he
      | cons kv rest =>
        obtain ⟨k, v⟩ := kv
        cases v with
        | vRef src j =>
          simp only [dfsAux] at h
          by_cases hsrc : src ∈ st.visited
          · rw [if_pos hsrc] at h
            exact ih _ _ _ h
          · rw [if_neg hsrc] at h
            split at h
            · exact absurd h (by simp)
            · rename_i stm hm
              intro e he
              rcases ih _ _ _ h e he with h1 | h1
              · exact ih _ _ _ hm e h1
              · exact Or.inr h1
        | vStr s => simp only [dfsAux] at h; exact ih _ _ _ h
        | vInt n => simp only [dfsAux] at h; exact ih _ _ _ h
        | vBool b => simp only [dfsAux] at h; exact ih _ _ _ h
        | vVar s => simp only [dfsAux] at h; exact ih _ _ _ h

/-- A successful `_dfs(key)` leaves `key` visited. -/
lemma dfsAux_inl_visited (g : Graph) (flag : Bool) (fuel : Nat) (key : String)
    (st st' : RState) (h : dfsAux g flag fuel (.inl key) st = .ok st') :
    key ∈ st'.visited := by
  cases fuel with
  | zero => exact absurd h (by simp [dfsAux])
  | succ f =>
    simp only [dfsAux] at h
    split at h
    · exact absurd h (by simp)
    · rename_i spec hlk
      split at h
      · exact absurd h (by simp)
      · rename_i st2 hrec
        simp only [Except.ok.injEq] at h
        subst h
        exact (dfsAux_mono g flag f _ _ _ hrec).1 key (List.mem_cons_self _ _)

/-- Every visited node outside the current DFS stack `S` has all its
dependency edges inside the visited set. -/
def ClosedExcept (g : Graph) (S V : List String) : Prop :=
  ∀ a ∈ V, a ∈ S ∨ ∀ b, Edge g a b → b ∈ V

/-- DFS maintains edge-closure of the visited set (relative to the stack),
and processes every reference of the input list it walks. -/
lemma dfsAux_closed (g : Graph) (flag : Bool) :
    ∀ (fuel : Nat) (task : String ⊕ List (String × Value)) (st st' : RState)
      (S : List String),
      dfsAux g flag fuel task st = .ok st' →
      ClosedExcept g S st.visited →
      (match task with
       | .inl _ => True
       | .inr vals => ∃ key spec, key ∈ S ∧ lookupG g key = some spec ∧
           ∀ x ∈ vals, x ∈ spec.inputs) →
      ClosedExcept g S st'.visited ∧
      (∀ vals, task = .inr vals →
        ∀ kv ∈ vals, ∀ src j, kv.2 = Value.vRef src j → src ∈ st'.visited) := by
  intro fuel
  induction fuel with
  | zero =>
    intro task st st' S h
    exact absurd h (by simp [dfsAux])
  | succ f ih =>
    intro task st st' S h hcl htask
    cases task with
    | inl key =>
      simp only [dfsAux] at h
      split at h
      · exact absurd h (by simp)
      · rename_i spec hlk
        split at h
        · exact absurd h (by simp)
        · rename_i st2 hrec
          simp only [Except.ok.injEq] at h
          subst h
          have hcl1 : ClosedExcept g (key :: S) (key :: st.visited) := by
            intro a ha
            rcases List.mem_cons.mp ha with ha | ha
            · exact Or.inl (ha ▸ List.mem_cons_self _ _)
            · rcases hcl a ha with h1 | h1
              · exact Or.inl (List.mem_cons_of_mem _ h1)
              · exact Or.inr fun b hb => List.mem_cons_of_mem _ (h1 b hb)
          obtain ⟨hcl2, hrefs2⟩ := ih _ _ _ (key :: S) hrec hcl1
            ⟨key, spec, List.mem_cons_self _ _, hlk, fun x hx => hx⟩
          refine ⟨?_, fun vals hv => nomatch hv⟩
          intro a ha
          rcases hcl2 a ha with h1 | h1
          · rcases List.mem_cons.mp h1 with h2 | h2
            · subst h2
              refine Or.inr fun b hb => ?_
              rcases hb with ⟨spec', hlk', k, j, hin⟩
              rw [hlk] at hlk'
              injection hlk' with he
              subst he
              exact hrefs2 spec.inputs rfl (k, Value.vRef b j) hin b j rfl
            · exact Or.inl h2
          · exact Or.inr h1
    | inr vals =>
      cases vals with
      | nil =>
        simp only [dfsAux, Except.ok.injEq] at h
        subst h
        refine ⟨hcl, ?_⟩
        intro vals hv
        cases hv
        intro kv hkv
        exact absurd hkv (List.not_mem_nil _)
      | cons kv0 rest =>
        obtain ⟨k, v⟩ := kv0
        obtain ⟨key, spec, hkS, hlk, hsub⟩ := htask
        have hrest : ∃ key spec, key ∈ S ∧ lookupG g key = some spec ∧
            ∀ x ∈ rest, x ∈ spec.inputs :=
          ⟨key, spec, hkS, hlk, fun x hx => hsub x (List.mem_cons_of_mem _ hx)⟩
        cases v with
        | vRef src j =>
          simp only [dfsAux] at h
          by_cases hsrc : src ∈ st.visited
          · rw [if_pos hsrc] at h
            obtain ⟨hcl', hrefs'⟩ := ih _ _ _ S h hcl hrest
            refine ⟨hcl', ?_⟩
            intro vals hv
            cases hv
            intro kv hkv src' j' heq
            rcases List.mem_cons.mp hkv with hkv | hkv
            · subst hkv
              simp only at heq
              injection heq with he1 he2
              subst he1
              exact (dfsAux_mono g flag f _ _ _ h).1 src hsrc
            · exact hrefs' rest rfl kv hkv src' j' heq
          · rw [if_neg hsrc] at h
            split at h
            · exact absurd h (by simp)
            · rename_i stm hm
              obtain ⟨hclm, _⟩ := ih _ _ _ S hm hcl trivial
              obtain ⟨hcl', hrefs'⟩ := ih _ _ _ S h hclm hrest
              refine ⟨hcl', ?_⟩
              intro vals hv
              cases hv
              intro kv hkv src' j' heq
              rcases List.mem_cons.mp hkv with hkv | hkv
              · subst hkv
                simp only at heq
                injection heq with he1 he2
                subst he1
                exact (dfsAux_mono g flag f _ _ _ h).1 src
                  (dfsAux_inl_visited g flag f src st stm hm)
              · exact hrefs' rest rfl kv hkv src' j' heq
        | vStr s =>
          simp only [dfsAux] at h
          obtain ⟨hcl', hrefs'⟩ := ih _ _ _ S h hcl hrest
          refine ⟨hcl', ?_⟩
          intro vals hv
          cases hv
          intro kv hkv src' j' heq
          rcases List.mem_cons.mp hkv with hkv | hkv
          · subst hkv
            exact absurd heq (by simp)
          · exact hrefs' rest rfl kv hkv src' j' heq
        | vInt n =>
          simp only [dfsAux] at h
          obtain ⟨hcl', hrefs'⟩ := ih _ _ _ S h hcl hrest
          refine ⟨hcl', ?_⟩
          intro vals hv
          cases hv
          intro kv hkv src' j' heq
          rcases List.mem_cons.mp hkv with hkv | hkv
          · subst hkv
            exact absurd heq (by simp)
          · exact hrefs' rest rfl kv hkv src' j' heq
        | vBool b =>
          simp only [dfsAux] at h
          obtain ⟨hcl', hrefs'⟩ := ih _ _ _ S h hcl hrest
          refine ⟨hcl', ?_⟩
          intro vals hv
          cases hv
          intro kv hkv src' j' heq
          rcases List.mem_cons.mp hkv with hkv | hkv
          · subst hkv
            exact absurd heq (by simp)
          · exact hrefs' rest rfl kv hkv src' j' heq
        | vVar s =>
          simp only [dfsAux] at h
          obtain ⟨hcl', hrefs'⟩ := ih _ _ _ S h hcl hrest
          refine ⟨hcl', ?_⟩
          intro vals hv
          cases hv
          intro kv hkv src' j' heq
          rcases List.mem_cons.mp hkv with hkv | hkv
          · subst hkv
            exact absurd heq (by simp)
          · exact hrefs' rest rfl kv hkv src' j' heq

/-- Every id a DFS call appends is reachable (along dependency edges) from
the root it was called on. -/
lemma dfsAux_reach (g : Graph) (flag : Bool) :
    ∀ (fuel : Nat) (task : String ⊕ List (String × Value)) (st st' : RState)
      (root : String),
      dfsAux g flag fuel task st = .ok st' →
      (match task with
       | .inl key => root = key
       | .inr vals => ∃ spec, lookupG g root = some spec ∧
           ∀ x ∈ vals, x ∈ spec.inputs) →
      ∀ i ∈ loadIds st'.load_order,
        i ∈ loadIds st.load_order ∨ Reach g root i := by
  intro fuel
  induction fuel with
  | zero =>
    intro task st st' root h
    exact absurd h (by simp [dfsAux])
  | succ f ih =>
    intro task st st' root h htask
    cases task with
    | inl key =>
      cases htask
      simp only [dfsAux] at h
      split at h
      · exact absurd h (by simp)
      · rename_i spec hlk
        split at h
        · exact absurd h (by simp)
        · rename_i st2 hrec
          simp only [Except.ok.injEq] at h
          subst h
          intro i hi
          simp only [loadIds, List.map_append, List.map_cons, List.map_nil] at hi
          rcases List.mem_append.mp hi with hi | hi
          · exact ih _ _ _ root hrec ⟨spec, hlk, fun x hx => hx⟩ i hi
          · simp only [List.mem_singleton] at hi
            subst hi
            exact Or.inr (Reach.refl _)
    | inr vals =>
      cases vals with
      | nil =>
        simp only [dfsAux, Except.ok.injEq] at h
        subst h
        exact fun i hi => Or.inl hi
      | cons kv0 rest =>
        obtain ⟨k, v⟩ := kv0
        obtain ⟨spec, hlk, hsub⟩ := htask
        have hrest : ∃ spec, lookupG g root = some spec ∧
            ∀ x ∈ rest, x ∈ spec.inputs :=
          ⟨spec, hlk, fun x hx => hsub x (List.mem_cons_of_mem _ hx)⟩
        cases v with
        | vRef src j =>
          have hedge : Edge g root src :=
            ⟨spec, hlk, k, j, hsub _ (List.mem_cons_self _ _)⟩
          simp only [dfsAux] at h
          by_cases hsrc : src ∈ st.visited
          · rw [if_pos hsrc] at h
            exact ih _ _ _ root h hrest
          · rw [if_neg hsrc] at h
            split at h
            · exact absurd h (by simp)
            · rename_i stm hm
              intro i hi
              rcases ih _ _ _ root h hrest i hi with h1 | h1
              · rcases ih _ _ _ src hm rfl i h1 with h2 | h2
                · exact Or.inl h2
                · exact Or.inr (Reach.step hedge h2)
              · exact Or.inr h1
        | vStr s => simp only [dfsAux] at h; exact ih _ _ _ root h hrest
        | vInt n => simp only [dfsAux] at h; exact ih _ _ _ root h hrest
        | vBool b => simp only [dfsAux] at h; exact ih _ _ _ root h hrest
        | vVar s => simp only [dfsAux] at h; exact ih _ _ _ root h hrest

lemma contains_true_iff (l : List String) (a : String) :
    l.contains a = true ↔ a ∈ l := by
  induction l with
  | nil => simp
  | cons b rest ih => simp

/-- `topoOk` over a plan extended by one entry: the old plan must be sound
and the new entry's references must point into the seen ids. -/
lemma topoOk_append (x : LoadEntry) :
    ∀ (L : List LoadEntry) (seen : List String),
      topoOk seen (L ++ [x]) =
        (topoOk seen L && depsSeen (seen ++ loadIds L) x.2.1) := by
  intro L
  induction L with
  | nil =>
    intro seen
    simp [topoOk, loadIds, depsSeen]
  | cons e L ih =>
    intro seen
    show topoOk seen (e :: (L ++ [x])) = _
    simp only [topoOk]
    rw [ih (seen ++ [e.1])]
    simp only [loadIds, List.map_cons]
    rw [List.append_cons seen e.1 (List.map (fun e => e.1) L),
      ← Bool.and_assoc]

/-- On an acyclic graph, DFS preserves topological soundness of the plan:
when a node is appended, every node it references has already been appended.
`S` is the current recursion stack (every member reaches the current root);
every visited node is on the stack or already appended. -/
lemma dfsAux_topo (g : Graph) (flag : Bool) (hacy : Acyclic g) :
    ∀ (fuel : Nat) (task : String ⊕ List (String × Value)) (st st' : RState)
      (S : List String),
      dfsAux g flag fuel task st = .ok st' →
      (∀ a ∈ st.visited, a ∈ S ∨ a ∈ loadIds st.load_order) →
      topoOk [] st.load_order = true →
      (match task with
       | .inl key => ∀ s ∈ S, Reach g s key
       | .inr vals => ∃ key spec, (∀ s ∈ S, Reach g s key) ∧
           lookupG g key = some spec ∧ ∀ x ∈ vals, x ∈ spec.inputs) →
      (∀ a ∈ st'.visited, a ∈ S ∨ a ∈ loadIds st'.load_order) ∧
      topoOk [] st'.load_order = true ∧
      (∀ vals, task = .inr vals →
        ∀ kv ∈ vals, ∀ src j, kv.2 = Value.vRef src j → src ∈ st'.visited) := by
  intro fuel
  induction fuel with
  | zero =>
    intro task st st' S h
    exact absurd h (by simp [dfsAux])
  | succ f ih =>
    intro task st st' S h hHV htopo htask
    cases task with
    | inl key =>
      simp only [dfsAux] at h
      split at h
      · exact absurd h (by simp)
      · rename_i spec hlk
        split at h
        · exact absurd h (by simp)
        · rename_i st2 hrec
          simp only [Except.ok.injEq] at h
          subst h
          have hHV1 : ∀ a ∈ key :: st.visited,
              a ∈ key :: S ∨ a ∈ loadIds st.load_order := by
            intro a ha
            rcases List.mem_cons.mp ha with ha | ha
            · exact Or.inl (ha ▸ List.mem_cons_self _ _)
            · rcases hHV a ha with h1 | h1
              · exact Or.inl (List.mem_cons_of_mem _ h1)
              · exact Or.inr h1
          have hHS1 : ∃ key' spec', (∀ s ∈ key :: S, Reach g s key') ∧
              lookupG g key' = some spec' ∧
              ∀ x ∈ spec.inputs, x ∈ spec'.inputs := by
            refine ⟨key, spec, ?_, hlk, fun x hx => hx⟩
            intro s hs
            rcases List.mem_cons.mp hs with hs | hs
            · exact hs ▸ Reach.refl _
            · exact htask s hs
          obtain ⟨hHV2, htopo2, hrefs2⟩ := ih _ _ _ (key :: S) hrec hHV1 htopo hHS1
          have hdeps : depsSeen (loadIds st2.load_order) spec = true := by
            rw [depsSeen, List.all_eq_true]
            intro kv hkv
            obtain ⟨k0, v0⟩ := kv
            cases v0 with
            | vRef src j =>
              simp only
              have hsrcvis : src ∈ st2.visited :=
                hrefs2 spec.inputs rfl (k0, Value.vRef src j) hkv src j rfl
              have hedge : Edge g key src := ⟨spec, hlk, k0, j, hkv⟩
              rcases hHV2 src hsrcvis with h1 | h1
              · rcases List.mem_cons.mp h1 with h2 | h2
                · subst h2
                  exact absurd (Reach.refl src) (fun hr => hacy _ _ hedge hr)
                · exact absurd (htask src h2) (fun hr => hacy _ _ hedge hr)
              · exact (contains_true_iff _ _).mpr h1
            | vStr s => rfl
            | vInt n => rfl
            | vBool b => rfl
            | vVar s => rfl
          refine ⟨?_, ?_, fun vals hv => nomatch hv⟩
          · intro a ha
            rcases hHV2 a ha with h1 | h1
            · rcases List.mem_cons.mp h1 with h2 | h2
              · subst h2
                refine Or.inr ?_
                simp [loadIds]
              · exact Or.inl h2
            · refine Or.inr ?_
              simp only [loadIds, List.map_append]
              exact List.mem_append.mpr (Or.inl h1)
          · rw [topoOk_append (key, spec, flag) st2.load_order []]
            simp only [List.nil_append]
            rw [htopo2, hdeps]
            rfl
    | inr vals =>
      cases vals with
      | nil =>
        simp only [dfsAux, Except.ok.injEq] at h
        subst h
        refine ⟨hHV, htopo, ?_⟩
        intro vals hv
        cases hv
        intro kv hkv
        exact absurd hkv (List.not_mem_nil _)
      | cons kv0 rest =>
        obtain ⟨k, v⟩ := kv0
        obtain ⟨key, spec, hHSk, hlk, hsub⟩ := htask
        have hrest : ∃ key' spec', (∀ s ∈ S, Reach g s key') ∧
            lookupG g key' = some spec' ∧ ∀ x ∈ rest, x ∈ spec'.inputs :=
          ⟨key, spec, hHSk, hlk, fun x hx => hsub x (List.mem_cons_of_mem _ hx)⟩
        cases v with
        | vRef src j =>
          have hedge : Edge g key src :=
            ⟨spec, hlk, k, j, hsub _ (List.mem_cons_self _ _)⟩
          simp only [dfsAux] at h
          by_cases hsrc : src ∈ st.visited
          · rw [if_pos hsrc] at h
            obtain ⟨hHV', htopo', hrefs'⟩ := ih _ _ _ S h hHV htopo hrest
            refine ⟨hHV', htopo', ?_⟩
            intro vals hv
            cases hv
            intro kv hkv src' j' heq
            rcases List.mem_cons.mp hkv with hkv | hkv
            · subst hkv
              simp only at heq
              injection heq with he1 he2
              subst he1
              exact (dfsAux_mono g flag f _ _ _ h).1 src hsrc
            · exact hrefs' rest rfl kv hkv src' j' heq
          · rw [if_neg hsrc] at h
            split at h
            · exact absurd h (by simp)
            · rename_i stm hm
              have hHSsrc : ∀ s ∈ S, Reach g s src := fun s hs =>
                reach_trans (hHSk s hs) (Reach.step hedge (Reach.refl src))
              obtain ⟨hHVm, htopom, _⟩ := ih _ _ _ S hm hHV htopo hHSsrc
              obtain ⟨hHV', htopo', hrefs'⟩ := ih _ _ _ S h hHVm htopom hrest
              refine ⟨hHV', htopo', ?_⟩
              intro vals hv
              cases hv
              intro kv hkv src' j' heq
              rcases List.mem_cons.mp hkv with hkv | hkv
              · subst hkv
                simp only at heq
                injection heq with he1 he2
                subst he1
                exact (dfsAux_mono g flag f _ _ _ h).1 src
                  (dfsAux_inl_visited g flag f src st stm hm)
              · exact hrefs' rest rfl kv hkv src' j' heq
        | vStr s =>
          simp only [dfsAux] at h
          obtain ⟨hHV', htopo', hrefs'⟩ := ih _ _ _ S h hHV htopo hrest
          refine ⟨hHV', htopo', ?_⟩
          intro vals hv
          cases hv
          intro kv hkv src' j' heq
          rcases List.mem_cons.mp hkv with hkv | hkv
          · subst hkv
            exact absurd heq (by simp)
          · exact hrefs' rest rfl kv hkv src' j' heq
        | vInt n =>
          simp only [dfsAux] at h
          obtain ⟨hHV', htopo', hrefs'⟩ := ih _ _ _ S h hHV htopo hrest
          refine ⟨hHV', htopo', ?_⟩
          intro vals hv
          cases hv
          intro kv hkv src' j' heq
          rcases List.mem_cons.mp hkv with hkv | hkv
          · subst hkv
            exact absurd heq (by simp)
          · exact hrefs' rest rfl kv hkv src' j' heq
        | vBool b =>
          simp only [dfsAux] at h
          obtain ⟨hHV', htopo', hrefs'⟩ := ih _ _ _ S h hHV htopo hrest
          refine ⟨hHV', htopo', ?_⟩
          intro vals hv
          cases hv
          intro kv hkv src' j' heq
          rcases List.mem_cons.mp hkv with hkv | hkv
          · subst hkv
            exact absurd heq (by simp)
          · exact hrefs' rest rfl kv hkv src' j' heq
        | vVar s =>
          simp only [dfsAux] at h
          obtain ⟨hHV', htopo', hrefs'⟩ := ih _ _ _ S h hHV htopo hrest
          refine ⟨hHV', htopo', ?_⟩
          intro vals hv
          cases hv
          intro kv hkv src' j' heq
          rcases List.mem_cons.mp hkv with hkv | hkv
          · subst hkv
            exact absurd heq (by simp)
          · exact hrefs' rest rfl kv hkv src' j' heq

lemma not_contains_iff (l : List String) (a : String) :
    (!(l.contains a)) = true ↔ a ∉ l := by
  constructor
  · intro h hc
    rw [(contains_true_iff l a).mpr hc] at h
    simp at h
  · intro h
    cases hb : l.contains a
    · rfl
    · exact absurd ((contains_true_iff l a).mp hb) h

/-- Marking more nodes visited never increases the remaining DFS work. -/
lemma su_antitone (g : Graph) (V W : List String) (h : ∀ x ∈ V, x ∈ W) :
    su g W ≤ su g V := by
  induction g with
  | nil => exact Nat.le_refl _
  | cons e rest ih =>
    unfold su at ih ⊢
    simp only [List.filter_cons]
    by_cases hW : (!(W.contains e.1)) = true
    · have hV : (!(V.contains e.1)) = true := by
        rw [not_contains_iff] at hW ⊢
        exact fun hc => hW (h _ hc)
      rw [if_pos hW, if_pos hV]
      simp only [List.map_cons, List.sum_cons]
      omega
    · by_cases hV : (!(V.contains e.1)) = true
      · rw [if_neg hW, if_pos hV]
        simp only [List.map_cons, List.sum_cons]
        omega
      · rw [if_neg hW, if_neg hV]
        exact ih

/-- Marking an unvisited graph key visited removes at least that node's
weight from the remaining work. -/
lemma su_mark (g : Graph) (V : List String) (key : String) (spec : NodeSpec)
    (hk : key ∉ V) (hm : (key, spec) ∈ g) :
    su g (key :: V) + (2 + spec.inputs.length) ≤ su g V := by
  induction g with
  | nil => exact absurd hm (List.not_mem_nil _)
  | cons e rest ih =>
    rcases List.mem_cons.mp hm with he | he
    · subst he
      unfold su
      simp only [List.filter_cons]
      have h1 : ¬((!((key :: V).contains (key, spec).1)) = true) := by
        rw [not_contains_iff]
        intro hc
        exact hc (List.mem_cons_self _ _)
      have h2 : (!(V.contains (key, spec).1)) = true :=
        (not_contains_iff _ _).mpr hk
      rw [if_neg h1, if_pos h2]
      simp only [List.map_cons, List.sum_cons]
      have hmono : su rest (key :: V) ≤ su rest V :=
        su_antitone rest V (key :: V) (fun x hx => List.mem_cons_of_mem _ hx)
      unfold su at hmono
      omega
    · have ihr := ih he
      unfold su at ihr ⊢
      simp only [List.filter_cons]
      by_cases hV : (!(V.contains e.1)) = true
      · by_cases hkey : e.1 = key
        · have h1 : ¬((!((key :: V).contains e.1)) = true) := by
            rw [not_contains_iff]
            intro hc
            exact hc (hkey ▸ List.mem_cons_self _ _)
          rw [if_neg h1, if_pos hV]
          simp only [List.map_cons, List.sum_cons]
          omega
        · have h1 : (!((key :: V).contains e.1)) = true := by
            rw [not_contains_iff] at hV ⊢
            intro hc
            rcases List.mem_cons.mp hc with hc | hc
            · exact hkey hc
            · exact hV hc
          rw [if_pos h1, if_pos hV]
          simp only [List.map_cons, List.sum_cons]
          omega
      · have h1 : ¬((!((key :: V).contains e.1)) = true) := by
          rw [not_contains_iff] at hV ⊢
          intro hc
          exact hV fun hcc => hc (List.mem_cons_of_mem _ hcc)
        rw [if_neg h1, if_neg (fun hc => hV hc)]
        exact ihr

/-- `noDanglingB` unpacked: every reference's source is a graph key. -/
lemma noDangling_spec (g : Graph) (h : noDanglingB g = true) :
    ∀ key spec, (key, spec) ∈ g → ∀ k src j,
      (k, Value.vRef src j) ∈ spec.inputs → src ∈ g.map Prod.fst := by
  intro key spec hmem k src j hin
  have h1 := List.all_eq_true.mp h _ hmem
  have h2 := List.all_eq_true.mp h1 _ hin
  simp only at h2
  exact (contains_true_iff _ _).mp h2

/-- With enough fuel, no dangling references and all descended keys in the
graph, DFS always returns `ok`. -/
lemma dfsAux_success (g : Graph) (flag : Bool) (hnd : noDanglingB g = true) :
    ∀ (fuel : Nat) (task : String ⊕ List (String × Value)) (st : RState),
      (match task with
       | .inl key => key ∈ g.map Prod.fst ∧ key ∉ st.visited ∧
           1 + su g st.visited ≤ fuel
       | .inr vals => (∃ key spec, lookupG g key = some spec ∧
           ∀ x ∈ vals, x ∈ spec.inputs) ∧
           1 + vals.length + su g st.visited ≤ fuel) →
      ∃ st', dfsAux g flag fuel task st = .ok st' := by
  intro fuel
  induction fuel with
  | zero =>
    intro task st htask
    cases task with
    | inl key =>
      obtain ⟨_, _, hf⟩ := htask
      exact absurd hf (by omega)
    | inr vals =>
      obtain ⟨_, hf⟩ := htask
      exact absurd hf (by omega)
  | succ f ih =>
    intro task st htask
    cases task with
    | inl key =>
      obtain ⟨hkmem, hkvis, hfuel⟩ := htask
      obtain ⟨spec, hlk⟩ := lookupG_isSome_of_mem g key hkmem
      have hmark := su_mark g st.visited key spec hkvis (lookupG_mem _ _ _ hlk)
      obtain ⟨st2, hst2⟩ : ∃ st2, dfsAux g flag f (.inr spec.inputs)
          ⟨key :: st.visited, st.load_order⟩ = .ok st2 := by
        apply ih
        exact ⟨⟨key, spec, hlk, fun x hx => hx⟩, by
          have : su g (⟨key :: st.visited, st.load_order⟩ : RState).visited =
              su g (key :: st.visited) := rfl
          omega⟩
      refine ⟨⟨st2.visited, st2.load_order ++ [(key, spec, flag)]⟩, ?_⟩
      simp only [dfsAux, hlk, hst2]
    | inr vals =>
      cases vals with
      | nil => exact ⟨st, by simp [dfsAux]⟩
      | cons kv rest =>
        obtain ⟨⟨key, spec, hlk, hsub⟩, hfuel⟩ := htask
        obtain ⟨k, v⟩ := kv
        have hsubrest : ∀ x ∈ rest, x ∈ spec.inputs :=
          fun x hx => hsub x (List.mem_cons_of_mem _ hx)
        simp only [List.length_cons] at hfuel
        cases v with
        | vRef src j =>
          by_cases hsrc : src ∈ st.visited
          · obtain ⟨st', h'⟩ : ∃ st', dfsAux g flag f (.inr rest) st = .ok st' :=
              ih _ _ ⟨⟨key, spec, hlk, hsubrest⟩, by omega⟩
            exact ⟨st', by simp only [dfsAux, if_pos hsrc]; exact h'⟩
          · have hsrcmem : src ∈ g.map Prod.fst :=
              noDangling_spec g hnd key spec (lookupG_mem _ _ _ hlk) k src j
                (hsub _ (List.mem_cons_self _ _))
            obtain ⟨stm, hm⟩ : ∃ stm, dfsAux g flag f (.inl src) st = .ok stm :=
              ih _ _ ⟨hsrcmem, hsrc, by omega⟩
            have hsu : su g stm.visited ≤ su g st.visited :=
              su_antitone g st.visited stm.visited
                (dfsAux_mono g flag f _ _ _ hm).1
            obtain ⟨st', h'⟩ : ∃ st', dfsAux g flag f (.inr rest) stm = .ok st' :=
              ih _ _ ⟨⟨key, spec, hlk, hsubrest⟩, by omega⟩
            exact ⟨st', by simp only [dfsAux, if_neg hsrc, hm]; exact h'⟩
        | vStr s =>
          obtain ⟨st', h'⟩ : ∃ st', dfsAux g flag f (.inr rest) st = .ok st' :=
            ih _ _ ⟨⟨key, spec, hlk, hsubrest⟩, by omega⟩
          exact ⟨st', by simp only [dfsAux]; exact h'⟩
        | vInt n =>
          obtain ⟨st', h'⟩ : ∃ st', dfsAux g flag f (.inr rest) st = .ok st' :=
            ih _ _ ⟨⟨key, spec, hlk, hsubrest⟩, by omega⟩
          exact ⟨st', by simp only [dfsAux]; exact h'⟩
        | vBool b =>
          obtain ⟨st', h'⟩ : ∃ st', dfsAux g flag f (.inr rest) st = .ok st' :=
            ih _ _ ⟨⟨key, spec, hlk, hsubrest⟩, by omega⟩
          exact ⟨st', by simp only [dfsAux]; exact h'⟩
        | vVar s =>
          obtain ⟨st', h'⟩ : ∃ st', dfsAux g flag f (.inr rest) st = .ok st' :=
            ih _ _ ⟨⟨key, spec, hlk, hsubrest⟩, by omega⟩
          exact ⟨st', by simp only [dfsAux]; exact h'⟩

/-- The special pass only grows `visited` and appends to the plan. -/
lemma pA_mono (g : Graph) (reg : Registry) (fuel : Nat) :
    ∀ (keys : List String) (st st' : RState),
      load_special_functions_first g reg fuel keys st = .ok st' →
      (∀ x ∈ st.visited, x ∈ st'.visited) ∧
      (∃ d, st'.load_order = st.load_order ++ d) := by
  intro keys
  induction keys with
  | nil =>
    intro st st' h
    simp only [load_special_functions_first, Except.ok.injEq] at h
    subst h
    exact ⟨fun x hx => hx, [], by simp⟩
  | cons key rest ih =>
    intro st st' h
    simp only [load_special_functions_first] at h
    split at h
    · exact ih _ _ h
    · rename_i spec hlk
      split at h
      · exact absurd h (by simp)
      · rename_i cd hcd
        split at h
        · split at h
          · exact ih _ _ h
          · split at h
            · exact absurd h (by simp)
            · rename_i st2 hdfs
              obtain ⟨hv1, d1, hd1⟩ := dfsAux_mono g true fuel _ _ _ hdfs
              obtain ⟨hv2, d2, hd2⟩ := ih _ _ h
              exact ⟨fun x hx => hv2 x (hv1 x hx), d1 ++ d2, by
                rw [hd2, hd1, List.append_assoc]⟩
        · exact ih _ _ h

/-- The main pass only grows `visited` and appends to the plan. -/
lemma pB_mono (g : Graph) (fuel : Nat) :
    ∀ (keys : List String) (st st' : RState),
      mainPass g fuel keys st = .ok st' →
      (∀ x ∈ st.visited, x ∈ st'.visited) ∧
      (∃ d, st'.load_order = st.load_order ++ d) := by
  intro keys
  induction keys with
  | nil =>
    intro st st' h
    simp only [mainPass, Except.ok.injEq] at h
    subst h
    exact ⟨fun x hx => hx, [], by simp⟩
  | cons key rest ih =>
    intro st st' h
    simp only [mainPass] at h
    split at h
    · exact ih _ _ h
    · split at h
      · exact absurd h (by simp)
      · rename_i st2 hdfs
        obtain ⟨hv1, d1, hd1⟩ := dfsAux_mono g false fuel _ _ _ hdfs
        obtain ⟨hv2, d2, hd2⟩ := ih _ _ h
        exact ⟨fun x hx => hv2 x (hv1 x hx), d1 ++ d2, by
          rw [hd2, hd1, List.append_assoc]⟩

/-- The special pass preserves: plan ids distinct and all visited. -/
lemma pA_inv (g : Graph) (reg : Registry) (fuel : Nat) :
    ∀ (keys : List String) (st st' : RState),
      load_special_functions_first g reg fuel keys st = .ok st' →
      (loadIds st.load_order).Nodup →
      (∀ i ∈ loadIds st.load_order, i ∈ st.visited) →
      (loadIds st'.load_order).Nodup ∧
        ∀ i ∈ loadIds st'.load_order, i ∈ st'.visited := by
  intro keys
  induction keys with
  | nil =>
    intro st st' h hnd hsub
    simp only [load_special_functions_first, Except.ok.injEq] at h
    subst h
    exact ⟨hnd, hsub⟩
  | cons key rest ih =>
    intro st st' h hnd hsub
    simp only [load_special_functions_first] at h
    split at h
    · exact ih _ _ h hnd hsub
    · rename_i spec hlk
      split at h
      · exact absurd h (by simp)
      · rename_i cd hcd
        split at h
        · split at h
          · exact ih _ _ h hnd hsub
          · rename_i hvis
            split at h
            · exact absurd h (by simp)
            · rename_i st2 hdfs
              obtain ⟨hnd2, hsub2⟩ := dfsAux_nodup g true fuel _ _ _ hdfs
                (fun k hk => by cases hk; exact hvis) hnd hsub
              exact ih _ _ h hnd2 hsub2
        · exact ih _ _ h hnd hsub

/-- The main pass preserves: plan ids distinct and all visited. -/
lemma pB_inv (g : Graph) (fuel : Nat) :
    ∀ (keys : List String) (st st' : RState),
      mainPass g fuel keys st = .ok st' →
      (loadIds st.load_order).Nodup →
      (∀ i ∈ loadIds st.load_order, i ∈ st.visited) →
      (loadIds st'.load_order).Nodup ∧
        ∀ i ∈ loadIds st'.load_order, i ∈ st'.visited := by
  intro keys
  induction keys with
  | nil =>
    intro st st' h hnd hsub
    simp only [mainPass, Except.ok.injEq] at h
    subst h
    exact ⟨hnd, hsub⟩
  | cons key rest ih =>
    intro st st' h hnd hsub
    simp only [mainPass] at h
    split at h
    · exact ih _ _ h hnd hsub
    · rename_i hvis
      split at h
      · exact absurd h (by simp)
      · rename_i st2 hdfs
        obtain ⟨hnd2, hsub2⟩ := dfsAux_nodup g false fuel _ _ _ hdfs
          (fun k hk => by cases hk; exact hvis) hnd hsub
        exact ih _ _ h hnd2 hsub2

/-- Keys the special pass marks visited it also appends. -/
lemma pA_visited_appended (g : Graph) (reg : Registry) (fuel : Nat) :
    ∀ (keys : List String) (st st' : RState),
      load_special_functions_first g reg fuel keys st = .ok st' →
      ∀ x ∈ st'.visited, x ∈ st.visited ∨ x ∈ loadIds st'.load_order := by
  intro keys
  induction keys with
  | nil =>
    intro st st' h
    simp only [load_special_functions_first, Except.ok.injEq] at h
    subst h
    exact fun x hx => Or.inl hx
  | cons key rest ih =>
    intro st st' h
    simp only [load_special_functions_first] at h
    split at h
    · exact ih _ _ h
    · rename_i spec hlk
      split at h
      · exact absurd h (by simp)
      · rename_i cd hcd
        split at h
        · split at h
          · exact ih _ _ h
          · split at h
            · exact absurd h (by simp)
            · rename_i st2 hdfs
              intro x hx
              obtain ⟨_, d, hd⟩ := pA_mono g reg fuel rest st2 st' h
              rcases ih _ _ h x hx with h1 | h1
              · rcases dfsAux_visited_appended g true fuel _ _ _ hdfs x h1 with
                  h2 | h2
                · exact Or.inl h2
                · refine Or.inr ?_
                  rw [hd]
                  simp only [loadIds, List.map_append]
                  exact List.mem_append.mpr (Or.inl h2)
              · exact Or.inr h1
        · exact ih _ _ h

/-- Keys the main pass marks visited it also appends. -/
lemma pB_visited_appended (g : Graph) (fuel : Nat) :
    ∀ (keys : List String) (st st' : RState),
      mainPass g fuel keys st = .ok st' →
      ∀ x ∈ st'.visited, x ∈ st.visited ∨ x ∈ loadIds st'.load_order := by
  intro keys
  induction keys with
  | nil =>
    intro st st' h
    simp only [mainPass, Except.ok.injEq] at h
    subst h
    exact fun x hx => Or.inl hx
  | cons key rest ih =>
    intro st st' h
    simp only [mainPass] at h
    split at h
    · exact ih _ _ h
    · split at h
      · exact absurd h (by simp)
      · rename_i st2 hdfs
        intro x hx
        obtain ⟨_, d, hd⟩ := pB_mono g fuel rest st2 st' h
        rcases ih _ _ h x hx with h1 | h1
        · rcases dfsAux_visited_appended g false fuel _ _ _ hdfs x h1 with
            h2 | h2
          · exact Or.inl h2
          · refine Or.inr ?_
            rw [hd]
            simp only [loadIds, List.map_append]
            exact List.mem_append.mpr (Or.inl h2)
        · exact Or.inr h1

/-- Ids appended by the special pass are graph keys. -/
lemma pA_ids_graph (g : Graph) (reg : Registry) (fuel : Nat) :
    ∀ (keys : List String) (st st' : RState),
      load_special_functions_first g reg fuel keys st = .ok st' →
      ∀ i ∈ loadIds st'.load_order,
        i ∈ loadIds st.load_order ∨ i ∈ g.map Prod.fst := by
  intro keys
  induction keys with
  | nil =>
    intro st st' h
    simp only [load_special_functions_first, Except.ok.injEq] at h
    subst h
    exact fun i hi => Or.inl hi
  | cons key rest ih =>
    intro st st' h
    simp only [load_special_functions_first] at h
    split at h
    · exact ih _ _ h
    · rename_i spec hlk
      split at h
      · exact absurd h (by simp)
      · rename_i cd hcd
        split at h
        · split at h
          · exact ih _ _ h
          · split at h
            · exact absurd h (by simp)
            · rename_i st2 hdfs
              intro i hi
              rcases ih _ _ h i hi with h1 | h1
              · exact dfsAux_ids_in_graph g true fuel _ _ _ hdfs i h1
              · exact Or.inr h1
        · exact ih _ _ h

/-- Ids appended by the main pass are graph keys. -/
lemma pB_ids_graph (g : Graph) (fuel : Nat) :
    ∀ (keys : List String) (st st' : RState),
      mainPass g fuel keys st = .ok st' →
      ∀ i ∈ loadIds st'.load_order,
        i ∈ loadIds st.load_order ∨ i ∈ g.map Prod.fst := by
  intro keys
  induction keys with
  | nil =>
    intro st st' h
    simp only [mainPass, Except.ok.injEq] at h
    subst h
    exact fun i hi => Or.inl hi
  | cons key rest ih =>
    intro st st' h
    simp only [mainPass] at h
    split at h
    · exact ih _ _ h
    · split at h
      · exact absurd h (by simp)
      · rename_i st2 hdfs
        intro i hi
        rcases ih _ _ h i hi with h1 | h1
        · exact dfsAux_ids_in_graph g false fuel _ _ _ hdfs i h1
        · exact Or.inr h1

/-- Every entry the special pass appends is flagged `true`. -/
lemma pA_flag (g : Graph) (reg : Registry) (fuel : Nat) :
    ∀ (keys : List String) (st st' : RState),
      load_special_functions_first g reg fuel keys st = .ok st' →
      ∀ e ∈ st'.load_order, e ∈ st.load_order ∨ e.2.2 = true := by
  intro keys
  induction keys with
  | nil =>
    intro st st' h
    simp only [load_special_functions_first, Except.ok.injEq] at h
    subst h
    exact fun e he => Or.inl he
  | cons key rest ih =>
    intro st st' h
    simp only [load_special_functions_first] at h
    split at h
    · exact ih _ _ h
    · rename_i spec hlk
      split at h
      · exact absurd h (by simp)
      · rename_i cd hcd
        split at h
        · split at h
          · exact ih _ _ h
          · split at h
            · exact absurd h (by simp)
            · rename_i st2 hdfs
              intro e he
              rcases ih _ _ h e he with h1 | h1
              · exact dfsAux_flag g true fuel _ _ _ hdfs e h1
              · exact Or.inr h1
        · exact ih _ _ h

/-- Every entry the main pass appends is flagged `false`. -/
lemma pB_flag (g : Graph) (fuel : Nat) :
    ∀ (keys : List String) (st st' : RState),
      mainPass g fuel keys st = .ok st' →
      ∀ e ∈ st'.load_order, e ∈ st.load_order ∨ e.2.2 = false := by
  intro keys
  induction keys with
  | nil =>
    intro st st' h
    simp only [mainPass, Except.ok.injEq] at h
    subst h
    exact fun e he => Or.inl he
  | cons key rest ih =>
    intro st st' h
    simp only [mainPass] at h
    split at h
    · exact ih _ _ h
    · split at h
      · exact absurd h (by simp)
      · rename_i st2 hdfs
        intro e he
        rcases ih _ _ h e he with h1 | h1
        · exact dfsAux_flag g false fuel _ _ _ hdfs e h1
        · exact Or.inr h1

/-- A special (hoistable) node per the code's test, looked up in graph and
registry. -/
def SpecialRoot (g : Graph) (reg : Registry) (root : String) : Prop :=
  ∃ spec cd, lookupG g root = some spec ∧
    lookupG reg spec.class_type = some cd ∧ isSpecial cd spec = true

/-- A node is hoisted iff it is special or a (transitive) dependency of a
special node — the claim C4 characterization. -/
def HoistedUp (g : Graph) (reg : Registry) (n : String) : Prop :=
  ∃ root, SpecialRoot g reg root ∧ Reach g root n

/-- The special pass preserves topological soundness (acyclic graphs). -/
lemma pA_topo (g : Graph) (reg : Registry) (fuel : Nat) (hacy : Acyclic g) :
    ∀ (keys : List String) (st st' : RState),
      load_special_functions_first g reg fuel keys st = .ok st' →
      (∀ a ∈ st.visited, a ∈ loadIds st.load_order) →
      topoOk [] st.load_order = true →
      (∀ a ∈ st'.visited, a ∈ loadIds st'.load_order) ∧
        topoOk [] st'.load_order = true := by
  intro keys
  induction keys with
  | nil =>
    intro st st' h hv ht
    simp only [load_special_functions_first, Except.ok.injEq] at h
    subst h
    exact ⟨hv, ht⟩
  | cons key rest ih =>
    intro st st' h hv ht
    simp only [load_special_functions_first] at h
    split at h
    · exact ih _ _ h hv ht
    · rename_i spec hlk
      split at h
      · exact absurd h (by simp)
      · rename_i cd hcd
        split at h
        · split at h
          · exact ih _ _ h hv ht
          · split at h
            · exact absurd h (by simp)
            · rename_i st2 hdfs
              obtain ⟨hv2, ht2, _⟩ := dfsAux_topo g true hacy fuel _ _ _ []
                hdfs (fun a ha => Or.inr (hv a ha)) ht
                (fun s hs => absurd hs (List.not_mem_nil _))
              exact ih _ _ h
                (fun a ha => (hv2 a ha).resolve_left (List.not_mem_nil _)) ht2
        · exact ih _ _ h hv ht

/-- The main pass preserves topological soundness (acyclic graphs). -/
lemma pB_topo (g : Graph) (fuel : Nat) (hacy : Acyclic g) :
    ∀ (keys : List String) (st st' : RState),
      mainPass g fuel keys st = .ok st' →
      (∀ a ∈ st.visited, a ∈ loadIds st.load_order) →
      topoOk [] st.load_order = true →
      (∀ a ∈ st'.visited, a ∈ loadIds st'.load_order) ∧
        topoOk [] st'.load_order = true := by
  intro keys
  induction keys with
  | nil =>
    intro st st' h hv ht
    simp only [mainPass, Except.ok.injEq] at h
    subst h
    exact ⟨hv, ht⟩
  | cons key rest ih =>
    intro st st' h hv ht
    simp only [mainPass] at h
    split at h
    · exact ih _ _ h hv ht
    · split at h
      · exact absurd h (by simp)
      · rename_i st2 hdfs
        obtain ⟨hv2, ht2, _⟩ := dfsAux_topo g false hacy fuel _ _ _ []
          hdfs (fun a ha => Or.inr (hv a ha)) ht
          (fun s hs => absurd hs (List.not_mem_nil _))
        exact ih _ _ h
          (fun a ha => (hv2 a ha).resolve_left (List.not_mem_nil _)) ht2

/-- The special pass preserves edge-closure of the visited set. -/
lemma pA_closed (g : Graph) (reg : Registry) (fuel : Nat) :
    ∀ (keys : List String) (st st' : RState),
      load_special_functions_first g reg fuel keys st = .ok st' →
      ClosedExcept g [] st.visited → ClosedExcept g [] st'.visited := by
  intro keys
  induction keys with
  | nil =>
    intro st st' h hcl
    simp only [load_special_functions_first, Except.ok.injEq] at h
    subst h
    exact hcl
  | cons key rest ih =>
    intro st st' h hcl
    simp only [load_special_functions_first] at h
    split at h
    · exact ih _ _ h hcl
    · rename_i spec hlk
      split at h
      · exact absurd h (by simp)
      · rename_i cd hcd
        split at h
        · split at h
          · exact ih _ _ h hcl
          · split at h
            · exact absurd h (by simp)
            · rename_i st2 hdfs
              exact ih _ _ h
                (dfsAux_closed g true fuel _ _ _ [] hdfs hcl trivial).1
        · exact ih _ _ h hcl

/-- After the special pass, every special key among the processed keys is
visited. -/
lemma pA_roots (g : Graph) (reg : Registry) (fuel : Nat) :
    ∀ (keys : List String) (st st' : RState),
      load_special_functions_first g reg fuel keys st = .ok st' →
      ∀ k ∈ keys, ∀ spec cd, lookupG g k = some spec →
        lookupG reg spec.class_type = some cd → isSpecial cd spec = true →
        k ∈ st'.visited ∨ k ∈ st.visited := by
  intro keys
  induction keys with
  | nil =>
    intro st st' h k hk
    exact absurd hk (List.not_mem_nil _)
  | cons key rest ih =>
    intro st st' h k hk spec cd hlk2 hcd2 hsp2
    simp only [load_special_functions_first] at h
    rcases List.mem_cons.mp hk with hkk | hkk
    · subst hkk
      split at h
      · rename_i hnone
        rw [hnone] at hlk2
        exact absurd hlk2 (by simp)
      · rename_i spec0 hlk0
        rw [hlk0] at hlk2
        injection hlk2 with he
        subst he
        split at h
        · rename_i hnone
          rw [hnone] at hcd2
          exact absurd hcd2 (by simp)
        · rename_i cd0 hcd0
          rw [hcd0] at hcd2
          injection hcd2 with he
          subst he
          split at h
          · split at h
            · rename_i hvis
              exact Or.inl ((pA_mono g reg fuel _ _ _ h).1 k hvis)
            · split at h
              · exact absurd h (by simp)
              · rename_i st2 hdfs
                exact Or.inl ((pA_mono g reg fuel _ _ _ h).1 k
                  (dfsAux_inl_visited g true fuel k _ _ hdfs))
          · rename_i hnsp
            exact absurd hsp2 hnsp
    · split at h
      · exact ih _ _ h k hkk spec cd hlk2 hcd2 hsp2
      · rename_i spec0 hlk0
        split at h
        · exact absurd h (by simp)
        · rename_i cd0 hcd0
          split at h
          · split at h
            · exact ih _ _ h k hkk spec cd hlk2 hcd2 hsp2
            · split at h
              · exact absurd h (by simp)
              · rename_i st2 hdfs
                rcases ih _ _ h k hkk spec cd hlk2 hcd2 hsp2 with h1 | h1
                · exact Or.inl h1
                · exact Or.inl ((pA_mono g reg fuel _ _ _ h).1 k h1)

          · exact ih _ _ h k hkk spec cd hlk2 hcd2 hsp2

/-- Every id the special pass appends is reachable from a special root. -/
lemma pA_reach (g : Graph) (reg : Registry) (fuel : Nat) :
    ∀ (keys : List String) (st st' : RState),
      load_special_functions_first g reg fuel keys st = .ok st' →
      ∀ i ∈ loadIds st'.load_order,
        i ∈ loadIds st.load_order ∨ HoistedUp g reg i := by
  intro keys
  induction keys with
  | nil =>
    intro st st' h
    simp only [load_special_functions_first, Except.ok.injEq] at h
    subst h
    exact fun i hi => Or.inl hi
  | cons key rest ih =>
    intro st st' h
    simp only [load_special_functions_first] at h
    split at h
    · exact ih _ _ h
    · rename_i spec hlk
      split at h
      · exact absurd h (by simp)
      · rename_i cd hcd
        split at h
        · rename_i hsp
          split at h
          · exact ih _ _ h
          · split at h
            · exact absurd h (by simp)
            · rename_i st2 hdfs
              intro i hi
              rcases ih _ _ h i hi with h1 | h1
              · rcases dfsAux_reach g true fuel _ _ _ key hdfs rfl i h1 with
                  h2 | h2
                · exact Or.inl h2
                · exact Or.inr ⟨key, ⟨spec, cd, hlk, hcd, hsp⟩, h2⟩
              · exact Or.inr h1
        · exact ih _ _ h

/-- After the main pass, every processed key is visited. -/
lemma pB_coverage (g : Graph) (fuel : Nat) :
    ∀ (keys : List String) (st st' : RState),
      mainPass g fuel keys st = .ok st' →
      ∀ k ∈ keys, k ∈ st'.visited := by
  intro keys
  induction keys with
  | nil =>
    intro st st' h k hk
    exact absurd hk (List.not_mem_nil _)
  | cons key rest ih =>
    intro st st' h k hk
    simp only [mainPass] at h
    rcases List.mem_cons.mp hk with hkk | hkk
    · subst hkk
      split at h
      · rename_i hvis
        exact (pB_mono g fuel _ _ _ h).1 k hvis
      · split at h
        · exact absurd h (by simp)
        · rename_i st2 hdfs
          exact (pB_mono g fuel _ _ _ h).1 k
            (dfsAux_inl_visited g false fuel k _ _ hdfs)
    · split at h
      · exact ih _ _ h k hkk
      · split at h
        · exact absurd h (by simp)
        · rename_i st2 hdfs
          exact ih _ _ h k hkk

lemma su_nil (g : Graph) :
    su g [] = (g.map fun ks => 2 + ks.2.inputs.length).sum := by
  unfold su
  have hfil : (g.filter fun ks => !(([] : List String).contains ks.1)) = g :=
    List.filter_eq_self.mpr fun a _ => rfl
  rw [hfil]

/-- The fuel `determine_load_order` passes always suffices. -/
lemma su_le_resolverFuel (g : Graph) (V : List String) :
    1 + su g V ≤ resolverFuel g := by
  have h1 : su g V ≤ su g [] :=
    su_antitone g [] V (fun x hx => absurd hx (List.not_mem_nil _))
  have h2 := su_nil g
  unfold resolverFuel
  omega

/-- With no dangling references and a fully registered graph, the special
pass succeeds. -/
lemma pA_success (g : Graph) (reg : Registry) (fuel : Nat)
    (hnd : noDanglingB g = true) (hreg : allRegisteredB g reg = true) :
    ∀ (keys : List String) (st : RState),
      (∀ k ∈ keys, k ∈ g.map Prod.fst) →
      1 + su g st.visited ≤ fuel →
      ∃ st', load_special_functions_first g reg fuel keys st = .ok st' := by
  intro keys
  induction keys with
  | nil =>
    intro st _ _
    exact ⟨st, rfl⟩
  | cons key rest ih =>
    intro st hkeys hfuel
    obtain ⟨spec, hlk⟩ :=
      lookupG_isSome_of_mem g key (hkeys key (List.mem_cons_self _ _))
    have hkrest : ∀ k ∈ rest, k ∈ g.map Prod.fst :=
      fun k hk => hkeys k (List.mem_cons_of_mem _ hk)
    have hcd : ∃ cd, lookupG reg spec.class_type = some cd := by
      have h1 := List.all_eq_true.mp hreg _ (lookupG_mem _ _ _ hlk)
      simp only [Option.isSome_iff_exists] at h1
      exact h1
    obtain ⟨cd, hcd⟩ := hcd
    by_cases hsp : isSpecial cd spec = true
    · by_cases hvis : key ∈ st.visited
      · obtain ⟨st', h'⟩ := ih st hkrest hfuel
        refine ⟨st', ?_⟩
        simp only [load_special_functions_first, hlk, hcd]
        rw [if_pos hsp, if_pos hvis]
        exact h'
      · obtain ⟨st2, hdfs⟩ := dfsAux_success g true hnd fuel (.inl key) st
          ⟨hkeys key (List.mem_cons_self _ _), hvis, hfuel⟩
        have hsu : su g st2.visited ≤ su g st.visited :=
          su_antitone g st.visited st2.visited
            (dfsAux_mono g true fuel _ _ _ hdfs).1
        obtain ⟨st', h'⟩ := ih st2 hkrest (by omega)
        refine ⟨st', ?_⟩
        simp only [load_special_functions_first, hlk, hcd]
        rw [if_pos hsp, if_neg hvis, hdfs]
        exact h'
    · obtain ⟨st', h'⟩ := ih st hkrest hfuel
      refine ⟨st', ?_⟩
      simp only [load_special_functions_first, hlk, hcd]
      rw [if_neg hsp]
      exact h'

/-- With no dangling references, the main pass succeeds. -/
lemma pB_success (g : Graph) (fuel : Nat) (hnd : noDanglingB g = true) :
    ∀ (keys : List String) (st : RState),
      (∀ k ∈ keys, k ∈ g.map Prod.fst) →
      1 + su g st.visited ≤ fuel →
      ∃ st', mainPass g fuel keys st = .ok st' := by
  intro keys
  induction keys with
  | nil =>
    intro st _ _
    exact ⟨st, rfl⟩
  | cons key rest ih =>
    intro st hkeys hfuel
    have hkrest : ∀ k ∈ rest, k ∈ g.map Prod.fst :=
      fun k hk => hkeys k (List.mem_cons_of_mem _ hk)
    by_cases hvis : key ∈ st.visited
    · obtain ⟨st', h'⟩ := ih st hkrest hfuel
      refine ⟨st', ?_⟩
      simp only [mainPass]
      rw [if_pos hvis]
      exact h'
    · obtain ⟨st2, hdfs⟩ := dfsAux_success g false hnd fuel (.inl key) st
        ⟨hkeys key (List.mem_cons_self _ _), hvis, hfuel⟩
      have hsu : su g st2.visited ≤ su g st.visited :=
        su_antitone g st.visited st2.visited
          (dfsAux_mono g false fuel _ _ _ hdfs).1
      obtain ⟨st', h'⟩ := ih st2 hkrest (by omega)
      refine ⟨st', ?_⟩
      simp only [mainPass]
      rw [if_neg hvis, hdfs]
      exact h'

/-- With no dangling references, an unregistered class type among the
processed keys makes the special pass fail with exactly the `KeyError`
carrying some unregistered class type (never the node id). -/
lemma pA_error (g : Graph) (reg : Registry) (fuel : Nat)
    (hnd : noDanglingB g = true) :
    ∀ (keys : List String) (st : RState),
      (∀ k ∈ keys, k ∈ g.map Prod.fst) →
      1 + su g st.visited ≤ fuel →
      (∃ k ∈ keys, ∃ spec, lookupG g k = some spec ∧
        lookupG reg spec.class_type = none) →
      ∃ t, load_special_functions_first g reg fuel keys st =
          .error (.keyError t) ∧ lookupG reg t = none ∧
        ∃ key spec, lookupG g key = some spec ∧ spec.class_type = t := by
  intro keys
  induction keys with
  | nil =>
    intro st _ _ hwit
    obtain ⟨k, hk, _⟩ := hwit
    exact absurd hk (List.not_mem_nil _)
  | cons key rest ih =>
    intro st hkeys hfuel hwit
    obtain ⟨spec, hlk⟩ :=
      lookupG_isSome_of_mem g key (hkeys key (List.mem_cons_self _ _))
    have hkrest : ∀ k ∈ rest, k ∈ g.map Prod.fst :=
      fun k hk => hkeys k (List.mem_cons_of_mem _ hk)
    cases hcd : lookupG reg spec.class_type with
    | none =>
      refine ⟨spec.class_type, ?_, hcd, key, spec, hlk, rfl⟩
      simp only [load_special_functions_first, hlk, hcd]
    | some cd =>
      have hwitrest : ∃ k ∈ rest, ∃ spec, lookupG g k = some spec ∧
          lookupG reg spec.class_type = none := by
        obtain ⟨k, hk, spec2, hlk2, hcd2⟩ := hwit
        rcases List.mem_cons.mp hk with hkk | hkk
        · subst hkk
          rw [hlk] at hlk2
          injection hlk2 with he
          subst he
          rw [hcd] at hcd2
          exact absurd hcd2 (by simp)
        · exact ⟨k, hkk, spec2, hlk2, hcd2⟩
      by_cases hsp : isSpecial cd spec = true
      · by_cases hvis : key ∈ st.visited
        · obtain ⟨t, h', ht⟩ := ih st hkrest hfuel hwitrest
          refine ⟨t, ?_, ht⟩
          simp only [load_special_functions_first, hlk, hcd]
          rw [if_pos hsp, if_pos hvis]
          exact h'
        · obtain ⟨st2, hdfs⟩ := dfsAux_success g true hnd fuel (.inl key) st
            ⟨hkeys key (List.mem_cons_self _ _), hvis, hfuel⟩
          have hsu : su g st2.visited ≤ su g st.visited :=
            su_antitone g st.visited st2.visited
              (dfsAux_mono g true fuel _ _ _ hdfs).1
          obtain ⟨t, h', ht⟩ := ih st2 hkrest (by omega) hwitrest
          refine ⟨t, ?_, ht⟩
          simp only [load_special_functions_first, hlk, hcd]
          rw [if_pos hsp, if_neg hvis, hdfs]
          exact h'
      · obtain ⟨t, h', ht⟩ := ih st hkrest hfuel hwitrest
        refine ⟨t, ?_, ht⟩
        simp only [load_special_functions_first, hlk, hcd]
        rw [if_neg hsp]
        exact h'

/-- In a plan with pairwise-distinct ids, entries are determined by id. -/
lemma eq_of_mem_nodup_ids :
    ∀ (l : List LoadEntry), (loadIds l).Nodup →
      ∀ e1 ∈ l, ∀ e2 ∈ l, e1.1 = e2.1 → e1 = e2 := by
  intro l
  induction l with
  | nil =>
    intro _ e1 h1
    exact absurd h1 (List.not_mem_nil _)
  | cons x rest ih =>
    intro hnd e1 h1 e2 h2 heq
    have hnd' : x.1 ∉ loadIds rest ∧ (loadIds rest).Nodup := by
      simp only [loadIds, List.map_cons, List.nodup_cons] at hnd
      exact hnd
    rcases List.mem_cons.mp h1 with h1' | h1'
    · rcases List.mem_cons.mp h2 with h2' | h2'
      · subst h1'
        subst h2'
        rfl
      · subst h1'
        refine absurd ?_ hnd'.1
        rw [heq]
        exact List.mem_map_of_mem _ h2'
    · rcases List.mem_cons.mp h2 with h2' | h2'
      · subst h2'
        refine absurd ?_ hnd'.1
        rw [← heq]
        exact List.mem_map_of_mem _ h1'
      · exact ih hnd'.2 e1 h1' e2 h2' heq

/-- A node reachable from a visited node is visited, in an edge-closed
visited set. -/
lemma reach_visited (g : Graph) (V : List String) {r n : String}
    (hreach : Reach g r n) :
    ClosedExcept g [] V → r ∈ V → n ∈ V := by
  induction hreach with
  | refl =>
    intro _ hr
    exact hr
  | step he hsub ih =>
    intro hcl hr
    rcases hcl _ hr with h1 | h1
    · exact absurd h1 (List.not_mem_nil _)
    · exact ih hcl (h1 _ he)

/-- Destructuring a successful `determine_load_order` run into its passes. -/
lemma determine_ok_parts (g : Graph) (reg : Registry) (plan : List LoadEntry)
    (h : determine_load_order g reg = .ok plan) :
    ∃ st1 st2,
      load_special_functions_first g reg (resolverFuel g) (g.map Prod.fst)
        ⟨[], []⟩ = .ok st1 ∧
      mainPass g (resolverFuel g) (g.map Prod.fst) st1 = .ok st2 ∧
      plan = st2.load_order := by
  simp only [determine_load_order] at h
  split at h
  · exact absurd h (by simp)
  · rename_i st1 hA
    split at h
    · exact absurd h (by simp)
    · rename_i st2 hB
      simp only [Except.ok.injEq] at h
      exact ⟨st1, st2, hA, hB, h.symm⟩

/-- Topological soundness of every plan the resolver returns on an acyclic
graph (shared by claims C2 and C4). -/
lemma determine_topo (g : Graph) (reg : Registry) (plan : List LoadEntry)
    (hacy : Acyclic g) (h : determine_load_order g reg = .ok plan) :
    topoOk [] plan = true := by
  obtain ⟨st1, st2, hA, hB, rfl⟩ := determine_ok_parts g reg plan h
  have h1 := pA_topo g reg (resolverFuel g) hacy (g.map Prod.fst) ⟨[], []⟩ st1
    hA (fun a ha => absurd ha (List.not_mem_nil _)) rfl
  exact (pB_topo g (resolverFuel g) hacy (g.map Prod.fst) st1 st2 hB h1.1
    h1.2).2

/-- C2: on an acyclic graph, every plan `determine_load_order` returns is
topologically sound — for every entry whose inputs contain a Reference
`[src, idx]`, the entry for `src` appears strictly earlier in the plan. -/
theorem claim_C2 (g : Graph) (reg : Registry) (plan : List LoadEntry)
    (hacy : Acyclic g) (h : determine_load_order g reg = .ok plan) :
    topoOk [] plan = true :=
  determine_topo g reg plan hacy h

/-- The C2/C4 witness scenario: a loader feeding a consumer. -/
def loaderSpec : NodeSpec := ⟨"Loader", [("text", Value.vStr "hi")]⟩

def consumerSpec : NodeSpec := ⟨"Consumer", [("text", Value.vRef "1" 0)]⟩

def c2G : Graph := [("1", loaderSpec), ("2", consumerSpec)]

def c2Reg : Registry :=
  [("Loader", ⟨"loaders", "run", [], [], some ["text"]⟩),
   ("Consumer", ⟨"misc", "run", [], [], some ["text"]⟩)]

lemma c2G_acyclic : Acyclic c2G := by
  apply acyclic_of_rank c2G (fun s => if s = "2" then 1 else 0)
  intro ks hks kv hkv src j heq
  have hks' : ks = ("1", loaderSpec) ∨ ks = ("2", consumerSpec) := by
    simpa [c2G] using hks
  rcases hks' with rfl | rfl
  · have hkv' : kv = ("text", Value.vStr "hi") := by
      simpa [loaderSpec] using hkv
    subst hkv'
    exact absurd heq (by simp)
  · have hkv' : kv = ("text", Value.vRef "1" 0) := by
      simpa [consumerSpec] using hkv
    subst hkv'
    simp only at heq
    injection heq with he1 he2
    subst he1
    decide

/-- C2 witness: the loader/consumer graph is acyclic, resolves, and its plan
is topologically sound. -/
theorem claim_C2_witness :
    Acyclic c2G ∧
    determine_load_order c2G c2Reg =
      Except.ok [("1", loaderSpec, true), ("2", consumerSpec, false)] ∧
    topoOk [] [("1", loaderSpec, true), ("2", consumerSpec, false)] = true :=
  ⟨c2G_acyclic, by decide,
    claim_C2 c2G c2Reg [("1", loaderSpec, true), ("2", consumerSpec, false)]
      c2G_acyclic (by decide)⟩

/-- C9 counterexample: a graph with no dangling references (the claim's only
hypothesis) whose class type is absent from the registry: the resolver
raises `KeyError` instead of returning a list. -/
theorem claim_C9_counterexample :
    noDanglingB [("1", ⟨"X", []⟩)] = true ∧
    determine_load_order [("1", ⟨"X", []⟩)] [] =
      Except.error (PyErr.keyError "X") := by
  decide

/-- C9 as amended: with no dangling references *and every class type present
in the registry*, `determine_load_order` terminates successfully and returns
a plan whose ids are exactly the graph's node ids, each exactly once —
cyclic dependency relations included, because `_dfs` marks nodes visited
before descending and never re-enters a visited node. -/
theorem claim_C9_amended (g : Graph) (reg : Registry)
    (hnd : noDanglingB g = true) (hreg : allRegisteredB g reg = true) :
    ∃ plan, determine_load_order g reg = .ok plan ∧
      (loadIds plan).Nodup ∧
      ∀ k, k ∈ loadIds plan ↔ k ∈ g.map Prod.fst := by
  obtain ⟨st1, hA⟩ := pA_success g reg (resolverFuel g) hnd hreg
    (g.map Prod.fst) ⟨[], []⟩ (fun k hk => hk) (su_le_resolverFuel g [])
  obtain ⟨st2, hB⟩ := pB_success g (resolverFuel g) hnd (g.map Prod.fst) st1
    (fun k hk => hk) (su_le_resolverFuel g st1.visited)
  refine ⟨st2.load_order, ?_, ?_, ?_⟩
  · simp only [determine_load_order, hA, hB]
  · have h1 := pA_inv g reg (resolverFuel g) (g.map Prod.fst) ⟨[], []⟩ st1 hA
      (by simp [loadIds]) (by simp [loadIds])
    exact (pB_inv g (resolverFuel g) (g.map Prod.fst) st1 st2 hB h1.1 h1.2).1
  · intro k
    constructor
    · intro hk
      rcases pB_ids_graph g (resolverFuel g) (g.map Prod.fst) st1 st2 hB k hk
          with h1 | h1
      · rcases pA_ids_graph g reg (resolverFuel g) (g.map Prod.fst) ⟨[], []⟩
            st1 hA k h1 with h2 | h2
        · exact absurd h2 (by simp [loadIds])
        · exact h2
      · exact h1
    · intro hk
      have hvis : k ∈ st2.visited :=
        pB_coverage g (resolverFuel g) (g.map Prod.fst) st1 st2 hB k hk
      rcases pB_visited_appended g (resolverFuel g) (g.map Prod.fst) st1 st2
          hB k hvis with h1 | h1
      · rcases pA_visited_appended g reg (resolverFuel g) (g.map Prod.fst)
            ⟨[], []⟩ st1 hA k h1 with h2 | h2
        · exact absurd h2 (by simp)
        · obtain ⟨_, d, hd⟩ := pB_mono g (resolverFuel g) (g.map Prod.fst)
            st1 st2 hB
          rw [hd]
          simp only [loadIds, List.map_append]
          exact List.mem_append.mpr (Or.inl h2)
      · exact h1

/-- C9 witness: the self-reference scenario — a *cyclic* graph — resolves to
a plan listing its node exactly once. -/
theorem claim_C9_witness :
    noDanglingB [("1", ⟨"SelfRef", [("x", Value.vRef "1" 0)]⟩)] = true ∧
    allRegisteredB [("1", ⟨"SelfRef", [("x", Value.vRef "1" 0)]⟩)]
      [("SelfRef", ⟨"sampling", "sample", [], [], some ["x"]⟩)] = true ∧
    ∃ plan, determine_load_order
        [("1", ⟨"SelfRef", [("x", Value.vRef "1" 0)]⟩)]
        [("SelfRef", ⟨"sampling", "sample", [], [], some ["x"]⟩)] = .ok plan ∧
      (loadIds plan).Nodup ∧
      ∀ k, k ∈ loadIds plan ↔
        k ∈ ([("1", ⟨"SelfRef", [("x", Value.vRef "1" 0)]⟩)] : Graph).map
          Prod.fst :=
  ⟨by decide, by decide,
    claim_C9_amended [("1", ⟨"SelfRef", [("x", Value.vRef "1" 0)]⟩)]
      [("SelfRef", ⟨"sampling", "sample", [], [], some ["x"]⟩)]
      (by decide) (by decide)⟩

/-- C4: an entry of any returned plan is flagged hoisted (`true`) exactly
when its node is special — loader category, encode function, or no
list-valued input — or a transitive dependency of a special node; and on
acyclic graphs the plan is additionally topologically sound, so an ordinary
node still precedes every node depending on it. -/
theorem claim_C4 (g : Graph) (reg : Registry) (plan : List LoadEntry)
    (h : determine_load_order g reg = .ok plan) :
    (∀ e ∈ plan, e.2.2 = true ↔ HoistedUp g reg e.1) ∧
    (Acyclic g → topoOk [] plan = true) := by
  obtain ⟨st1, st2, hA, hB, hplan⟩ := determine_ok_parts g reg plan h
  constructor
  · intro e he
    rw [hplan] at he
    constructor
    · intro hflag
      have heA : e ∈ st1.load_order := by
        rcases pB_flag g (resolverFuel g) (g.map Prod.fst) st1 st2 hB e he with
            h1 | h1
        · exact h1
        · rw [hflag] at h1
          exact absurd h1 (by simp)
      rcases pA_reach g reg (resolverFuel g) (g.map Prod.fst) ⟨[], []⟩ st1 hA
          e.1 (List.mem_map_of_mem _ heA) with h1 | h1
      · exact absurd h1 (by simp [loadIds])
      · exact h1
    · intro hup
      obtain ⟨root, hroot, hreach⟩ := hup
      obtain ⟨spec, cd, hlk, hcd, hsp⟩ := hroot
      have hrootvis : root ∈ st1.visited := by
        rcases pA_roots g reg (resolverFuel g) (g.map Prod.fst) ⟨[], []⟩ st1
            hA root (mem_of_lookupG g root spec hlk) spec cd hlk hcd hsp with
            h1 | h1
        · exact h1
        · exact absurd h1 (by simp)
      have hcl : ClosedExcept g [] st1.visited :=
        pA_closed g reg (resolverFuel g) (g.map Prod.fst) ⟨[], []⟩ st1 hA
          (fun a ha => absurd ha (List.not_mem_nil _))
      have hnvis : e.1 ∈ st1.visited :=
        reach_visited g st1.visited hreach hcl hrootvis
      have hnid : e.1 ∈ loadIds st1.load_order := by
        rcases pA_visited_appended g reg (resolverFuel g) (g.map Prod.fst)
            ⟨[], []⟩ st1 hA e.1 hnvis with h1 | h1
        · exact absurd h1 (by simp)
        · exact h1
      obtain ⟨eA, heA, heAid⟩ := List.mem_map.mp hnid
      obtain ⟨_, d, hd⟩ := pB_mono g (resolverFuel g) (g.map Prod.fst) st1 st2
        hB
      have heA2 : eA ∈ st2.load_order := by
        rw [hd]
        exact List.mem_append.mpr (Or.inl heA)
      have hinv1 := pA_inv g reg (resolverFuel g) (g.map Prod.fst) ⟨[], []⟩
        st1 hA (by simp [loadIds]) (by simp [loadIds])
      have hinv2 := pB_inv g (resolverFuel g) (g.map Prod.fst) st1 st2 hB
        hinv1.1 hinv1.2
      have heqA : e = eA :=
        eq_of_mem_nodup_ids st2.load_order hinv2.1 e he eA heA2 heAid.symm
      rcases pA_flag g reg (resolverFuel g) (g.map Prod.fst) ⟨[], []⟩ st1 hA
          eA heA with h1 | h1
      · exact absurd h1 (List.not_mem_nil _)
      · rw [heqA]
        exact h1
  · intro hacy
    exact determine_topo g reg plan hacy h

/-- The C4 witness scenario (hoisting contagion): a pure-literal node `"1"`
feeds ordinary node `"2"`, which feeds ordinary node `"3"`. -/
def c4Lit : NodeSpec := ⟨"Lit", [("v", Value.vInt 3)]⟩

def c4Mid : NodeSpec := ⟨"Mid", [("x", Value.vRef "1" 0)]⟩

def c4End : NodeSpec := ⟨"End", [("y", Value.vRef "2" 0)]⟩

def c4G : Graph := [("1", c4Lit), ("2", c4Mid), ("3", c4End)]

def c4Reg : Registry :=
  [("Lit", ⟨"misc", "fn", [], [], some ["v"]⟩),
   ("Mid", ⟨"misc", "fn", [], [], some ["x"]⟩),
   ("End", ⟨"misc", "fn", [], [], some ["y"]⟩)]

/-- C4 witness: the contagion plan is `[1 hoisted, 2 ordinary, 3 ordinary]`
with the flag characterization and the ordering guarantee. -/
theorem claim_C4_witness :
    determine_load_order c4G c4Reg =
      Except.ok [("1", c4Lit, true), ("2", c4Mid, false), ("3", c4End, false)] ∧
    ((∀ e ∈ [("1", c4Lit, true), ("2", c4Mid, false), ("3", c4End, false)],
        e.2.2 = true ↔ HoistedUp c4G c4Reg e.1) ∧
     (Acyclic c4G →
       topoOk []
         [("1", c4Lit, true), ("2", c4Mid, false), ("3", c4End, false)] =
         true)) :=
  ⟨by decide,
    claim_C4 c4G c4Reg
      [("1", c4Lit, true), ("2", c4Mid, false), ("3", c4End, false)]
      (by decide)⟩

/-- With a sanitizable class type, `genStepRest` always returns `ok`. -/
lemma genStepRest_ok (cd : ClassDef) (idx : String) (data : NodeSpec)
    (sp : Bool) (obj : String) (st : GenState) (rng : RNG) (v : String)
    (hv : clean_variable_name data.class_type = .ok v) :
    ∃ p, genStepRest cd idx data sp obj st rng = .ok p := by
  have hev : executedVarName data.class_type idx = .ok (v ++ "_" ++ idx) := by
    unfold executedVarName
    rw [hv]
  simp only [genStepRest, hev]
  cases sp
  · exact ⟨_, rfl⟩
  · exact ⟨_, rfl⟩

/-- A registered entry whose class type sanitizes never makes `genStep`
raise: it returns `ok` (possibly skipping). -/
lemma genStep_ok_of_registered (reg : Registry) (base : List String)
    (e : LoadEntry) (st : GenState) (rng : RNG) (cd : ClassDef)
    (hcd : lookupG reg e.2.1.class_type = some cd)
    (hcl : isOkB (clean_variable_name e.2.1.class_type) = true) :
    ∃ p, genStep reg base e st rng = .ok p := by
  obtain ⟨v, hv⟩ : ∃ v, clean_variable_name e.2.1.class_type = .ok v := by
    cases hc : clean_variable_name e.2.1.class_type with
    | ok v => exact ⟨v, rfl⟩
    | error er =>
      rw [hc] at hcl
      exact absurd hcl (by simp [isOkB])
  simp only [genStep, hcd]
  split
  · exact ⟨_, rfl⟩
  · split
    · split
      · exact ⟨_, rfl⟩
      · rw [hv]
        exact genStepRest_ok cd e.1 e.2.1 e.2.2 v _ rng v hv
    · rename_i obj hobj
      exact genStepRest_ok cd e.1 e.2.1 e.2.2 obj st rng v hv

/-- An unregistered class type anywhere in the plan makes the generation
loop fail with a `KeyError` carrying some unregistered class type. -/
lemma genLoop_unregistered (reg : Registry) (base : List String) :
    ∀ (lo : List LoadEntry) (st : GenState) (rng : RNG),
      (∃ e ∈ lo, lookupG reg e.2.1.class_type = none) →
      (∀ e' ∈ lo, ∀ cd, lookupG reg e'.2.1.class_type = some cd →
        isOkB (clean_variable_name e'.2.1.class_type) = true) →
      ∃ t, genLoop reg base lo st rng = .error (.keyError t) ∧
        lookupG reg t = none := by
  intro lo
  induction lo with
  | nil =>
    intro st rng hwit _
    obtain ⟨e, he, _⟩ := hwit
    exact absurd he (List.not_mem_nil _)
  | cons e rest ih =>
    intro st rng hwit hclean
    cases hcd : lookupG reg e.2.1.class_type with
    | none =>
      refine ⟨e.2.1.class_type, ?_, hcd⟩
      simp only [genLoop, genStep, hcd]
    | some cd =>
      obtain ⟨p, hp⟩ := genStep_ok_of_registered reg base e st rng cd hcd
        (hclean e (List.mem_cons_self _ _) cd hcd)
      have hwitrest : ∃ e' ∈ rest, lookupG reg e'.2.1.class_type = none := by
        obtain ⟨e', he', hcd'⟩ := hwit
        rcases List.mem_cons.mp he' with he' | he'
        · subst he'
          rw [hcd] at hcd'
          exact absurd hcd' (by simp)
        · exact ⟨e', he', hcd'⟩
      obtain ⟨t, ht, htn⟩ := ih p.1 p.2 hwitrest
        (fun e' he' => hclean e' (List.mem_cons_of_mem _ he'))
      refine ⟨t, ?_, htn⟩
      simp only [genLoop, hp]
      exact ht

/-- C7 as amended: an unregistered class type aborts both the resolver and
the synthesizer with a bare `KeyError` that carries the offending *type* —
never the node id — and no output is produced.  (Side conditions: no
dangling references for the resolver, so the failure is the registry lookup;
sanitizable types for the synthesizer, so no earlier `IndexError` fires.) -/
theorem claim_C7_amended (g : Graph) (reg : Registry)
    (hnd : noDanglingB g = true)
    (key : String) (spec : NodeSpec)
    (hkey : lookupG g key = some spec)
    (hunreg : lookupG reg spec.class_type = none)
    (base utilSources : List String) (icnSource : String)
    (lo : List LoadEntry) (e : LoadEntry) (he : e ∈ lo)
    (heunreg : lookupG reg e.2.1.class_type = none)
    (hclean : ∀ e' ∈ lo, ∀ cd, lookupG reg e'.2.1.class_type = some cd →
      isOkB (clean_variable_name e'.2.1.class_type) = true)
    (q : Nat) (rng : RNG) :
    (∃ t, determine_load_order g reg = .error (.keyError t) ∧
      lookupG reg t = none ∧
      ∃ k s, lookupG g k = some s ∧ s.class_type = t) ∧
    (∃ t, generate_workflow reg base utilSources icnSource lo q rng =
      .error (.keyError t) ∧ lookupG reg t = none) := by
  constructor
  · obtain ⟨t, hA, htn, hw⟩ := pA_error g reg (resolverFuel g) hnd
      (g.map Prod.fst) ⟨[], []⟩ (fun k hk => hk) (su_le_resolverFuel g [])
      ⟨key, mem_of_lookupG g key spec hkey, spec, hkey, hunreg⟩
    refine ⟨t, ?_, htn, hw⟩
    simp only [determine_load_order, hA]
  · obtain ⟨t, hl, htn⟩ := genLoop_unregistered reg base lo initGenState rng
      ⟨e, he, heunreg⟩ hclean
    refine ⟨t, ?_, htn⟩
    simp only [generate_workflow, hl]

/-- C7 witness: the one-node `"Foo"` graph. -/
theorem claim_C7_witness :
    noDanglingB [("7", ⟨"Foo", []⟩)] = true ∧
    lookupG [("7", (⟨"Foo", []⟩ : NodeSpec))] "7" = some ⟨"Foo", []⟩ ∧
    lookupG ([] : Registry) "Foo" = none ∧
    ((∃ t, determine_load_order [("7", ⟨"Foo", []⟩)] [] =
        .error (.keyError t) ∧ lookupG ([] : Registry) t = none ∧
        ∃ k s, lookupG [("7", (⟨"Foo", []⟩ : NodeSpec))] k = some s ∧
          s.class_type = t) ∧
     (∃ t, generate_workflow [] [] [] "" [("7", ⟨"Foo", []⟩, true)] 1 [] =
        .error (.keyError t) ∧ lookupG ([] : Registry) t = none)) :=
  ⟨by decide, by decide, by decide,
    claim_C7_amended [("7", ⟨"Foo", []⟩)] [] (by decide) "7" ⟨"Foo", []⟩
      (by decide) (by decide) [] [] "" [("7", ⟨"Foo", []⟩, true)]
      ("7", ⟨"Foo", []⟩, true) (List.mem_cons_self _ _) (by decide)
      (fun e' he' cd hcd => absurd hcd (by simp [lookupG])) 1 []⟩
